import Mathlib

set_option maxHeartbeats 1000000

namespace Alp

/-! Shallow embedding of the alp_mvp knowledge-graph core: the in-memory
`KnowledgeGraph` (src/alp/graph/model.py, src/alp/graph/knowledge_graph.py),
the plan filter (`LearningPlan.filtered`, src/alp/ai/learning_plan.py and
src/alp/core/learning_plan.py) and the plan-injection merge
(`inject_learning_plan`, src/alp/graph/inject.py and
`GraphService.inject_plan`, src/alp/graph/service.py).

Machine integers are modelled as `Nat` (concept ids are DB autoincrement
keys, difficulties are clamped to 1..4 at parse time, so no overflow or
negativity is relevant).  Python's `str.lower` is modelled by ASCII case
folding and Python's string comparison by code-point lexicographic order. -/

/-- ASCII lowercasing of one character (model of Python `str.lower` on the
name alphabet actually used as merge keys). -/
def lowerChar (c : Char) : Char :=
  if 65 ≤ c.toNat ∧ c.toNat ≤ 90 then Char.ofNat (c.toNat + 32) else c

/-- Lowercase a string characterwise. -/
def lowerStr (s : String) : String := ⟨s.data.map lowerChar⟩

/-- Code-point lexicographic strict order on character lists, the order
Python uses to compare strings. -/
def charListLt : List Char → List Char → Bool
  | [], [] => false
  | [], _ :: _ => true
  | _ :: _, [] => false
  | a :: as, b :: bs =>
    if a.toNat < b.toNat then true
    else if b.toNat < a.toNat then false
    else charListLt as bs

/-- Non-strict string order derived from `charListLt`. -/
def strLe (a b : String) : Bool := !(charListLt b.data a.data)

/-- Propositional form of `strLe`, the order relation used to sort the
skipped-prerequisite names. -/
def strLeP (a b : String) : Prop := strLe a b = true

instance instDecStrLeP : DecidableRel strLeP :=
  fun a b => inferInstanceAs (Decidable (strLe a b = true))

/-- Attribute record stored on one graph node by `add_concept`
(`name`, `known`, `content` attributes of the networkx node). -/
structure NodeData where
  name : String
  known : Bool
  content : Option String
deriving Repr, DecidableEq

/-- In-memory directed knowledge graph for one user
(class `KnowledgeGraph` of src/alp/graph/model.py): a node list in
insertion order (networkx keeps insertion order), an edge list in
insertion order, and the mutation counter `version`. -/
structure KnowledgeGraph where
  nodes : List (Nat × NodeData)
  edges : List (Nat × Nat)
  version : Nat
deriving Repr, DecidableEq

/-- Association-list lookup by node id (first binding wins; graphs built
by the operations below never carry duplicate ids). -/
def lookupId : List (Nat × NodeData) → Nat → Option NodeData
  | [], _ => none
  | p :: ps, i => if p.1 = i then some p.2 else lookupId ps i

/-- Model of `networkx.DiGraph.add_node`: update the attributes in place
when the id is present, append a fresh entry otherwise. -/
def updateNodes : List (Nat × NodeData) → Nat → NodeData → List (Nat × NodeData)
  | [], i, d => [(i, d)]
  | p :: ps, i, d => if p.1 = i then (i, d) :: ps else p :: updateNodes ps i d

/-- Association-list lookup by string key (Python dict lookup). -/
def lookupKey : List (String × Nat) → String → Option Nat
  | [], _ => none
  | p :: ps, k => if p.1 = k then some p.2 else lookupKey ps k

/-- Python dict insertion: overwrite the binding in place when the key is
present, append otherwise. -/
def dictInsert : List (String × Nat) → String → Nat → List (String × Nat)
  | [], k, v => [(k, v)]
  | p :: ps, k, v => if p.1 = k then (k, v) :: ps else p :: dictInsert ps k v

/-- Membership test on the edge list (`networkx.DiGraph.has_edge`). -/
def hasPair : List (Nat × Nat) → Nat → Nat → Bool
  | [], _, _ => false
  | e :: es, s, t => if e.1 = s ∧ e.2 = t then true else hasPair es s t

/-- Fresh graph (`KnowledgeGraph.__init__`). -/
def KnowledgeGraph.empty : KnowledgeGraph := ⟨[], [], 0⟩

/-- Presence test for a concept id (`concept_id in self.G`). -/
def KnowledgeGraph.hasConcept (kg : KnowledgeGraph) (i : Nat) : Bool :=
  (lookupId kg.nodes i).isSome

/-- Model of `KnowledgeGraph.add_concept`: set the node attributes at
`i` (overwriting when present, networkx `add_node` semantics) and
increment `version`. -/
def KnowledgeGraph.add_concept (kg : KnowledgeGraph) (i : Nat) (name : String)
    (known : Bool) (content : Option String) : KnowledgeGraph :=
  ⟨updateNodes kg.nodes i ⟨name, known, content⟩, kg.edges, kg.version + 1⟩

/-- Edge presence test (`self.G.has_edge(src, dst)`). -/
def KnowledgeGraph.hasEdge (kg : KnowledgeGraph) (s t : Nat) : Bool :=
  hasPair kg.edges s t

/-- Model of `KnowledgeGraph.add_edge`: silently drop self-loops and edges
with an absent endpoint; otherwise call networkx `add_edge` (which leaves
the edge set unchanged when the edge already exists) and increment
`version`.  Note the version counter is incremented even when the edge was
already present, because the source does not guard the insert. -/
def KnowledgeGraph.add_edge (kg : KnowledgeGraph) (s t : Nat) : KnowledgeGraph :=
  if s = t then kg
  else if kg.hasConcept s && kg.hasConcept t then
    ⟨kg.nodes, if kg.hasEdge s t then kg.edges else kg.edges ++ [(s, t)], kg.version + 1⟩
  else kg

/-- Model of `KnowledgeGraph.mark_known`: set the `known` attribute when
the node is present and not yet known; otherwise do nothing. -/
def KnowledgeGraph.mark_known (kg : KnowledgeGraph) (i : Nat) : KnowledgeGraph :=
  match lookupId kg.nodes i with
  | none => kg
  | some d =>
    if d.known then kg
    else ⟨updateNodes kg.nodes i ⟨d.name, true, d.content⟩, kg.edges, kg.version + 1⟩

/-- Model of `KnowledgeGraph.is_known` (total variant of
src/alp/graph/knowledge_graph.py, returning false for an absent id). -/
def KnowledgeGraph.is_known (kg : KnowledgeGraph) (i : Nat) : Bool :=
  match lookupId kg.nodes i with
  | some d => d.known
  | none => false

/-- Successors of `u` in an edge list, in insertion order. -/
def succList (edges : List (Nat × Nat)) (u : Nat) : List Nat :=
  (edges.filter (fun e => e.1 = u)).map (fun e => e.2)

/-- Breadth-first search producing a minimum-edge-count path (model of the
unweighted `networkx.shortest_path`).  The queue holds reversed paths;
`visited` is extended at enqueue time; `fuel` bounds the number of dequeue
steps. -/
def bfsAux (adj : Nat → List Nat) (target : Nat) :
    Nat → List (List Nat) → List Nat → Option (List Nat)
  | 0, _, _ => none
  | _ + 1, [], _ => none
  | fuel + 1, path :: queue, visited =>
    match path with
    | [] => bfsAux adj target fuel queue visited
    | u :: _ =>
      if u = target then some path.reverse
      else
        let nexts := (adj u).filter (fun v => ¬ v ∈ visited)
        bfsAux adj target fuel (queue ++ nexts.map (fun v => v :: path)) (visited ++ nexts)

/-- Model of `KnowledgeGraph.shortest_path`: breadth-first search on the
directed graph first, falling back to the undirected view when no directed
path exists; the no-path sentinel is `none`.  (The source raises an
uncaught `NodeNotFound` when an endpoint is absent; the model returns the
sentinel there, a case no claim depends on.) -/
def KnowledgeGraph.shortest_path (kg : KnowledgeGraph) (a b : Nat) : Option (List Nat) :=
  let fuel := kg.nodes.length + kg.edges.length + 1
  match bfsAux (succList kg.edges) b fuel [[a]] [a] with
  | some p => some p
  | none =>
    bfsAux (fun u => succList kg.edges u ++ succList (kg.edges.map Prod.swap) u)
      b fuel [[a]] [a]

/-- Candidate plan node (`LearningPlanNode` dataclass of
src/alp/ai/learning_plan.py; the dict-based variant of
src/alp/core/learning_plan.py always populates the same four fields at
construction). -/
structure LearningPlanNode where
  name : String
  summary : String
  difficulty : Nat
  prerequisites : List String
deriving Repr, DecidableEq

/-- Candidate plan (`LearningPlan`). -/
structure LearningPlan where
  root_topic : String
  nodes : List LearningPlanNode
deriving Repr, DecidableEq

/-- Sort key used by `filtered`: the tuple
`(difficulty, name.lower())` compared lexicographically. -/
def planKeyLE (a b : LearningPlanNode) : Prop :=
  a.difficulty < b.difficulty ∨
    (a.difficulty = b.difficulty ∧ strLe (lowerStr a.name) (lowerStr b.name) = true)

instance instDecPlanKeyLE : DecidableRel planKeyLE := fun a b =>
  if h : a.difficulty < b.difficulty ∨
      (a.difficulty = b.difficulty ∧ strLe (lowerStr a.name) (lowerStr b.name) = true)
  then isTrue h else isFalse h

/-- Model of `LearningPlan.filtered`: keep the nodes with
`difficulty <= depth`, sort them stably by `(difficulty, name.lower())`
(Python `list.sort` is a stable sort; `insertionSort` with a non-strict
relation is stable), and truncate to `max_nodes` entries when `max_nodes`
is truthy and exceeded. -/
def LearningPlan.filtered (p : LearningPlan) (depth maxNodes : Nat) : LearningPlan :=
  ⟨p.root_topic,
    if maxNodes ≠ 0 ∧ maxNodes <
        (List.insertionSort planKeyLE (p.nodes.filter (fun n => n.difficulty ≤ depth))).length
    then (List.insertionSort planKeyLE
      (p.nodes.filter (fun n => n.difficulty ≤ depth))).take maxNodes
    else List.insertionSort planKeyLE (p.nodes.filter (fun n => n.difficulty ≤ depth))⟩

/-- Largest id occurring in a node list. -/
def maxNodeId : List (Nat × NodeData) → Nat
  | [] => 0
  | p :: ps => max p.1 (maxNodeId ps)

/-- Model of the id handed out by the storage collaborator for a newly
created concept (`db.flush()` assigning the autoincrement primary key):
an id strictly larger than every id in the graph. -/
def KnowledgeGraph.freshId (kg : KnowledgeGraph) : Nat := maxNodeId kg.nodes + 1

/-- One step of the `existing_map` dict comprehension: nodes whose `name`
attribute is falsy (empty) are skipped. -/
def mapStep (m : List (String × Nat)) (p : Nat × NodeData) : List (String × Nat) :=
  if p.2.name ≠ "" then dictInsert m (lowerStr p.2.name) p.1 else m

/-- Model of the `existing_map` comprehension of `inject_learning_plan`:
lowercased node name to concept id over the graph's nodes, later
bindings overwriting earlier ones. -/
def buildExistingMap (ns : List (Nat × NodeData)) : List (String × Nat) :=
  ns.foldl mapStep []

/-- State threaded through pass 1 of the injection: the evolving
`existing_map`, each plan node paired with its resolved id (the
`name_to_id` information pass 2 consumes), the two counters and the
evolving graph. -/
structure Pass1State where
  map : List (String × Nat)
  resolved : List (LearningPlanNode × Nat)
  added : Nat
  reused : Nat
  kg : KnowledgeGraph

/-- Pass 1 of `inject_learning_plan` (concept reconciliation): reuse the
existing id when the lowercased name is in `existing_map`, otherwise
create a concept through storage, add it to the graph and register it in
the map.  The stored content is `summary or None`. -/
def pass1 (st : Pass1State) : List LearningPlanNode → Pass1State
  | [] => st
  | n :: ns =>
    match lookupKey st.map (lowerStr n.name) with
    | some cid =>
      pass1 ⟨st.map, st.resolved ++ [(n, cid)], st.added, st.reused + 1, st.kg⟩ ns
    | none =>
      let cid := st.kg.freshId
      pass1 ⟨dictInsert st.map (lowerStr n.name) cid, st.resolved ++ [(n, cid)],
        st.added + 1, st.reused,
        st.kg.add_concept cid n.name false (if n.summary = "" then none else some n.summary)⟩ ns

/-- Pass 2, innermost step: resolve one prerequisite name of the node
resolved to `tgt`; unresolved names go to the skipped set (original
casing, deduplicated), self references are dropped, and a missing edge is
created. -/
def pass2Prereq (m : List (String × Nat)) (tgt : Nat)
    (acc : KnowledgeGraph × List String) (pname : String) : KnowledgeGraph × List String :=
  match lookupKey m (lowerStr pname) with
  | none => (acc.1, if pname ∈ acc.2 then acc.2 else acc.2 ++ [pname])
  | some src =>
    if src = tgt then acc
    else if acc.1.hasEdge src tgt then acc
    else (acc.1.add_edge src tgt, acc.2)

/-- Pass 2 over one resolved plan node: fold over its prerequisite list in
listed order. -/
def pass2Node (m : List (String × Nat)) (acc : KnowledgeGraph × List String)
    (r : LearningPlanNode × Nat) : KnowledgeGraph × List String :=
  r.1.prerequisites.foldl (pass2Prereq m r.2) acc

/-- Pass 2 of `inject_learning_plan` over all resolved plan nodes in
filtered order. -/
def pass2 (m : List (String × Nat)) (acc : KnowledgeGraph × List String)
    (rs : List (LearningPlanNode × Nat)) : KnowledgeGraph × List String :=
  rs.foldl (pass2Node m) acc

/-- Ascending sort of the skipped names (Python `sorted` on a set of
strings). -/
def sortStrings (l : List String) : List String :=
  List.insertionSort strLeP l

/-- Result of one injection call: the mutated graph and the
`(added, reused, skipped)` triple the source returns. -/
structure InjectResult where
  graph : KnowledgeGraph
  added : Nat
  reused : Nat
  skipped : List String
deriving Repr, DecidableEq

/-- Model of `inject_learning_plan` (src/alp/graph/inject.py, identical to
`GraphService.inject_plan`): filter the plan, build `existing_map`, run
pass 1 (concepts) then pass 2 (edges), and return the counters with the
sorted skipped list.  The `user_id` and the database session only route
the durable writes and are dropped here; id assignment by the storage
collaborator is modelled by `freshId`. -/
def inject_learning_plan (kg : KnowledgeGraph) (plan : LearningPlan)
    (depth maxNodes : Nat) : InjectResult :=
  let st := pass1 ⟨buildExistingMap kg.nodes, [], 0, 0, kg⟩ (plan.filtered depth maxNodes).nodes
  let out := pass2 st.map (st.kg, []) st.resolved
  ⟨out.1, st.added, st.reused, sortStrings out.2⟩

/-- One session-level mutation of the graph, for claims quantifying over
operation sequences. -/
inductive GraphOp where
  | addConcept (i : Nat) (name : String) (known : Bool) (content : Option String)
  | addEdge (s t : Nat)
  | markKnown (i : Nat)
  | injectPlan (plan : LearningPlan) (depth maxNodes : Nat)

/-- Apply one operation. -/
def applyOp (kg : KnowledgeGraph) : GraphOp → KnowledgeGraph
  | .addConcept i n k c => kg.add_concept i n k c
  | .addEdge s t => kg.add_edge s t
  | .markKnown i => kg.mark_known i
  | .injectPlan p d m => (inject_learning_plan kg p d m).graph

/-- Apply a sequence of operations left to right. -/
def applyOps (kg : KnowledgeGraph) (ops : List GraphOp) : KnowledgeGraph :=
  ops.foldl applyOp kg

/-- Dangling-freedom invariant: both endpoints of every edge are nodes of
the graph. -/
def edgesClosed (kg : KnowledgeGraph) : Prop :=
  ∀ e ∈ kg.edges, (lookupId kg.nodes e.1).isSome ∧ (lookupId kg.nodes e.2).isSome

/-- Fallible-storage variant of pass 1: each concept creation consumes one
unit of storage budget (`db.add` + `db.flush`); when the budget is
exhausted the flush raises, `session_scope` rolls the transaction back and
re-raises, and the in-memory graph mutated so far escapes with the
exception.  Reuse performs no storage write. -/
def pass1F : Nat → Pass1State → List LearningPlanNode → Except KnowledgeGraph (Nat × Pass1State)
  | budget, st, [] => .ok (budget, st)
  | budget, st, n :: ns =>
    match lookupKey st.map (lowerStr n.name) with
    | some cid =>
      pass1F budget ⟨st.map, st.resolved ++ [(n, cid)], st.added, st.reused + 1, st.kg⟩ ns
    | none =>
      match budget with
      | 0 => .error st.kg
      | b + 1 =>
        let cid := st.kg.freshId
        pass1F b ⟨dictInsert st.map (lowerStr n.name) cid, st.resolved ++ [(n, cid)],
          st.added + 1, st.reused,
          st.kg.add_concept cid n.name false (if n.summary = "" then none else some n.summary)⟩ ns

/-- Fallible-storage model of a whole injection call: pass 1 may fail on a
concept flush; the closing commit of `session_scope` consumes the last
budget unit, so a zero remaining budget models a failed commit after both
passes mutated the in-memory graph.  In every error case the durable
transaction is rolled back (no record survives) while the returned graph
is the in-memory state at the moment the exception propagates. -/
def injectWithBudget (budget : Nat) (kg : KnowledgeGraph) (plan : LearningPlan)
    (depth maxNodes : Nat) : Except KnowledgeGraph InjectResult :=
  match pass1F budget ⟨buildExistingMap kg.nodes, [], 0, 0, kg⟩ (plan.filtered depth maxNodes).nodes with
  | .error g => .error g
  | .ok (b, st) =>
    let out := pass2 st.map (st.kg, []) st.resolved
    match b with
    | 0 => .error out.1
    | _ + 1 => .ok ⟨out.1, st.added, st.reused, sortStrings out.2⟩

/-- Safety condition on one operation for the amended known-monotonicity
claim: `add_concept` overwrites the attributes of an existing node, so only
calls with `known = true` are guaranteed not to reset the flag. -/
def GraphOp.knownSafe : GraphOp → Prop
  | .addConcept _ _ k _ => k = true
  | _ => True

/-- Example graph holding nodes 1 and 2 and the edge 1 → 2. -/
def kgAB : KnowledgeGraph :=
  ((KnowledgeGraph.empty.add_concept 1 "A" false none).add_concept 2 "B" false none).add_edge 1 2

/-- Example graph holding the single known node "Math" with id 1. -/
def kgMathW : KnowledgeGraph := KnowledgeGraph.empty.add_concept 1 "Math" true none

/-- Example graph holding the single known node "A" with id 1. -/
def kgKnownW : KnowledgeGraph := KnowledgeGraph.empty.add_concept 1 "A" true none

/-- Example plan of the Math → Calculus → Limits scenario. -/
def planMathW : LearningPlan :=
  ⟨"Math", [⟨"Math", "", 1, []⟩, ⟨"Calculus", "", 2, ["Math"]⟩, ⟨"Limits", "", 3, ["Calculus"]⟩]⟩

/-- Example plan with one node. -/
def planOneW : LearningPlan := ⟨"T", [⟨"A", "", 1, []⟩]⟩

/-- Example plan with mixed difficulties, for filter examples. -/
def planOrdW : LearningPlan :=
  ⟨"T", [⟨"b", "", 2, []⟩, ⟨"A", "", 2, []⟩, ⟨"c", "", 1, []⟩, ⟨"d", "", 4, []⟩]⟩

/-- Example plan whose only node has an unresolvable prerequisite. -/
def planSkipW : LearningPlan := ⟨"T", [⟨"A", "", 1, ["Zzz"]⟩]⟩

/-- Example plan with two fresh nodes, for the storage-failure scenario. -/
def planABW : LearningPlan := ⟨"T", [⟨"A", "", 1, []⟩, ⟨"B", "", 1, []⟩]⟩

/-! Basic lemmas: the character-list order, association-list lookups and
Python-dict insertion. -/

theorem char_eq_of_toNat_eq {a b : Char} (h : a.toNat = b.toNat) : a = b := by
  apply Char.ext
  apply UInt32.ext
  exact h

theorem charListLt_asymm : ∀ {a b : List Char},
    charListLt a b = true → charListLt b a = false
  | [], [], h => by simp [charListLt] at h
  | [], _ :: _, _ => rfl
  | _ :: _, [], h => by simp [charListLt] at h
  | a :: as, b :: bs, h => by
    simp only [charListLt] at h ⊢
    by_cases h1 : a.toNat < b.toNat
    · have h2 : ¬ b.toNat < a.toNat := by omega
      simp [h1, h2]
    · by_cases h2 : b.toNat < a.toNat
      · simp [h1, h2] at h
      · simp only [h1, h2, if_false, if_neg] at h ⊢
        simpa using charListLt_asymm h

theorem charListLt_trans : ∀ {a b c : List Char},
    charListLt a b = true → charListLt b c = true → charListLt a c = true
  | [], [], _, h, _ => by simp [charListLt] at h
  | [], _ :: _, [], _, h => by simp [charListLt] at h
  | [], _ :: _, _ :: _, _, _ => rfl
  | _ :: _, [], _, h, _ => by simp [charListLt] at h
  | _ :: _, _ :: _, [], _, h => by simp [charListLt] at h
  | a :: as, b :: bs, c :: cs, h1, h2 => by
    simp only [charListLt] at h1 h2 ⊢
    by_cases hab : a.toNat < b.toNat <;> by_cases hbc : b.toNat < c.toNat
    · have : a.toNat < c.toNat := by omega
      simp [this]
    · by_cases hcb : c.toNat < b.toNat
      · simp [hbc, hcb] at h2
      · have hbceq : b.toNat = c.toNat := by omega
        have : a.toNat < c.toNat := by omega
        simp [this]
    · by_cases hba : b.toNat < a.toNat
      · simp [hab, hba] at h1
      · have : a.toNat < c.toNat := by omega
        simp [this]
    · by_cases hba : b.toNat < a.toNat
      · simp [hab, hba] at h1
      · by_cases hcb : c.toNat < b.toNat
        · simp [hbc, hcb] at h2
        · have hac : ¬ a.toNat < c.toNat := by omega
          have hca : ¬ c.toNat < a.toNat := by omega
          simp only [hab, hba, if_false, if_neg] at h1
          simp only [hbc, hcb, if_false, if_neg] at h2
          simp only [hac, hca, if_false, if_neg]
          simpa using charListLt_trans (by simpa using h1) (by simpa using h2)

theorem charListLt_conn : ∀ {a b : List Char},
    charListLt a b = false → charListLt b a = false → a = b
  | [], [], _, _ => rfl
  | [], _ :: _, h, _ => by simp [charListLt] at h
  | _ :: _, [], _, h => by simp [charListLt] at h
  | a :: as, b :: bs, h1, h2 => by
    simp only [charListLt] at h1 h2
    by_cases hab : a.toNat < b.toNat
    · simp [hab] at h1
    · by_cases hba : b.toNat < a.toNat
      · simp [hba, hab] at h2
      · have : a = b := char_eq_of_toNat_eq (by omega)
        subst this
        simp only [hab, if_false, if_neg] at h1 h2
        have := charListLt_conn (by simpa using h1) (by simpa using h2)
        rw [this]

theorem strLe_total (a b : String) : strLe a b = true ∨ strLe b a = true := by
  by_cases h : charListLt b.data a.data = true
  · right
    simpa [strLe] using charListLt_asymm h
  · left
    simpa [strLe] using eq_false_of_ne_true h

theorem strLe_trans {a b c : String} (h1 : strLe a b = true) (h2 : strLe b c = true) :
    strLe a c = true := by
  simp only [strLe, Bool.not_eq_true'] at h1 h2 ⊢
  by_cases hca : charListLt c.data a.data = true
  · by_cases hab : charListLt a.data b.data = true
    · have := charListLt_trans hca hab
      rw [this] at h2
      cases h2
    · have : a.data = b.data := charListLt_conn (eq_false_of_ne_true hab) h1
      rw [← this] at h2
      rw [h2] at hca
      cases hca
  · exact eq_false_of_ne_true hca

instance instTotalStrLeP : IsTotal String strLeP :=
  ⟨fun a b => strLe_total a b⟩

instance instTransStrLeP : IsTrans String strLeP :=
  ⟨fun _ _ _ h1 h2 => strLe_trans h1 h2⟩

instance instTotalPlanKeyLE : IsTotal LearningPlanNode planKeyLE := by
  refine ⟨fun a b => ?_⟩
  rcases Nat.lt_trichotomy a.difficulty b.difficulty with h | h | h
  · exact Or.inl (Or.inl h)
  · rcases strLe_total (lowerStr a.name) (lowerStr b.name) with hs | hs
    · exact Or.inl (Or.inr ⟨h, hs⟩)
    · exact Or.inr (Or.inr ⟨h.symm, hs⟩)
  · exact Or.inr (Or.inl h)

instance instTransPlanKeyLE : IsTrans LearningPlanNode planKeyLE := by
  refine ⟨fun a b c hab hbc => ?_⟩
  rcases hab with h1 | ⟨e1, s1⟩
  · rcases hbc with h2 | ⟨e2, _⟩
    · exact Or.inl (h1.trans h2)
    · exact Or.inl (e2 ▸ h1)
  · rcases hbc with h2 | ⟨e2, s2⟩
    · exact Or.inl (e1 ▸ h2)
    · exact Or.inr ⟨e1.trans e2, strLe_trans s1 s2⟩

theorem lookupId_append_some {xs ys : List (Nat × NodeData)} {i : Nat} {d : NodeData}
    (h : lookupId xs i = some d) : lookupId (xs ++ ys) i = some d := by
  induction xs with
  | nil => simp [lookupId] at h
  | cons p ps ih =>
    simp only [lookupId, List.cons_append] at h ⊢
    by_cases hp : p.1 = i
    · simpa [hp] using by simpa [hp] using h
    · simp only [hp, if_false, if_neg] at h ⊢
      exact ih h

theorem lookupId_append_of_isSome {xs ys : List (Nat × NodeData)} {i : Nat}
    (h : (lookupId xs i).isSome) : lookupId (xs ++ ys) i = lookupId xs i := by
  cases hx : lookupId xs i with
  | none => rw [hx] at h; cases h
  | some d => exact lookupId_append_some hx

theorem mem_of_lookupId {xs : List (Nat × NodeData)} {i : Nat} {d : NodeData}
    (h : lookupId xs i = some d) : (i, d) ∈ xs := by
  induction xs with
  | nil => simp [lookupId] at h
  | cons p ps ih =>
    simp only [lookupId] at h
    by_cases hp : p.1 = i
    · rw [if_pos hp] at h
      obtain ⟨a, b⟩ := p
      cases hp
      cases h
      exact List.mem_cons_self _ _
    · simp only [hp, if_false, if_neg] at h
      exact List.mem_cons_of_mem _ (ih h)

theorem lookupId_isSome_of_mem {xs : List (Nat × NodeData)} {i : Nat} {d : NodeData}
    (h : (i, d) ∈ xs) : (lookupId xs i).isSome := by
  induction xs with
  | nil => cases h
  | cons p ps ih =>
    rcases List.mem_cons.mp h with h | h
    · simp [lookupId, ← h]
    · by_cases hp : p.1 = i
      · simp [lookupId, hp]
      · simpa [lookupId, hp] using ih h

theorem le_maxNodeId {xs : List (Nat × NodeData)} {i : Nat} {d : NodeData}
    (h : (i, d) ∈ xs) : i ≤ maxNodeId xs := by
  induction xs with
  | nil => cases h
  | cons p ps ih =>
    rcases List.mem_cons.mp h with h | h
    · simp [maxNodeId, ← h]
    · simp only [maxNodeId]
      exact le_max_of_le_right (ih h)

theorem lookupId_freshId (kg : KnowledgeGraph) : lookupId kg.nodes kg.freshId = none := by
  cases h : lookupId kg.nodes kg.freshId with
  | none => rfl
  | some d =>
    have hmem := mem_of_lookupId h
    have hle := le_maxNodeId hmem
    simp only [KnowledgeGraph.freshId] at hle
    omega

theorem updateNodes_append_of_none {xs : List (Nat × NodeData)} {i : Nat} (d : NodeData)
    (h : lookupId xs i = none) : updateNodes xs i d = xs ++ [(i, d)] := by
  induction xs with
  | nil => rfl
  | cons p ps ih =>
    simp only [lookupId] at h
    by_cases hp : p.1 = i
    · simp [hp] at h
    · simp only [updateNodes, hp, if_false, if_neg, List.cons_append]
      simp only [hp, if_false, if_neg] at h
      rw [ih h]

theorem lookupId_updateNodes_self (xs : List (Nat × NodeData)) (i : Nat) (d : NodeData) :
    lookupId (updateNodes xs i d) i = some d := by
  induction xs with
  | nil => simp [updateNodes, lookupId]
  | cons p ps ih =>
    simp only [updateNodes]
    by_cases hp : p.1 = i
    · simp [hp, lookupId]
    · simp [hp, lookupId, ih]

theorem lookupId_updateNodes_ne {xs : List (Nat × NodeData)} {i j : Nat} (d : NodeData)
    (h : j ≠ i) : lookupId (updateNodes xs i d) j = lookupId xs j := by
  induction xs with
  | nil => simp [updateNodes, lookupId, Ne.symm h]
  | cons p ps ih =>
    simp only [updateNodes]
    by_cases hp : p.1 = i
    · simp [hp, lookupId, Ne.symm h]
    · simp [hp, lookupId, ih]

theorem lookupKey_append_some {m m' : List (String × Nat)} {k : String} {v : Nat}
    (h : lookupKey m k = some v) : lookupKey (m ++ m') k = some v := by
  induction m with
  | nil => simp [lookupKey] at h
  | cons p ps ih =>
    simp only [lookupKey, List.cons_append] at h ⊢
    by_cases hp : p.1 = k
    · simpa [hp] using by simpa [hp] using h
    · simp only [hp, if_false, if_neg] at h ⊢
      exact ih h

theorem dictInsert_append_of_none {m : List (String × Nat)} {k : String} (v : Nat)
    (h : lookupKey m k = none) : dictInsert m k v = m ++ [(k, v)] := by
  induction m with
  | nil => rfl
  | cons p ps ih =>
    simp only [lookupKey] at h
    by_cases hp : p.1 = k
    · simp [hp] at h
    · simp only [dictInsert, hp, if_false, if_neg, List.cons_append]
      simp only [hp, if_false, if_neg] at h
      rw [ih h]

theorem lookupKey_dictInsert_self (m : List (String × Nat)) (k : String) (v : Nat) :
    lookupKey (dictInsert m k v) k = some v := by
  induction m with
  | nil => simp [dictInsert, lookupKey]
  | cons p ps ih =>
    simp only [dictInsert]
    by_cases hp : p.1 = k
    · simp [hp, lookupKey]
    · simp [hp, lookupKey, ih]

theorem lookupKey_dictInsert_ne {m : List (String × Nat)} {k k' : String} (v : Nat)
    (h : k' ≠ k) : lookupKey (dictInsert m k v) k' = lookupKey m k' := by
  induction m with
  | nil => simp [dictInsert, lookupKey, Ne.symm h]
  | cons p ps ih =>
    simp only [dictInsert]
    by_cases hp : p.1 = k
    · simp [hp, lookupKey, Ne.symm h]
    · simp [hp, lookupKey, ih]

theorem hasPair_append (es fs : List (Nat × Nat)) (s t : Nat) :
    hasPair (es ++ fs) s t = (hasPair es s t || hasPair fs s t) := by
  induction es with
  | nil => simp [hasPair]
  | cons e es ih =>
    simp only [hasPair, List.cons_append]
    by_cases he : e.1 = s ∧ e.2 = t
    · simp [he]
    · simp [he, ih]

theorem hasPair_iff_mem {es : List (Nat × Nat)} {s t : Nat} :
    hasPair es s t = true ↔ (s, t) ∈ es := by
  induction es with
  | nil => simp [hasPair]
  | cons e es ih =>
    simp only [hasPair]
    by_cases he : e.1 = s ∧ e.2 = t
    · cases e
      simp_all
    · cases e
      simp only [List.mem_cons]
      constructor
      · intro h
        simp only [he, if_false, if_neg] at h
        exact Or.inr (ih.mp h)
      · intro h
        rcases h with h | h
        · simp at h
          simp [h] at he
        · simpa [he] using ih.mpr h

/-! Lemmas about the primitive graph operations. -/

theorem lookupId_updateNodes_isSome {xs : List (Nat × NodeData)} {i j : Nat} (d : NodeData)
    (h : (lookupId xs j).isSome) : (lookupId (updateNodes xs i d) j).isSome := by
  by_cases hij : j = i
  · rw [hij, lookupId_updateNodes_self]
    rfl
  · rwa [lookupId_updateNodes_ne d hij]

theorem add_concept_nodes_fresh {kg : KnowledgeGraph} {i : Nat} (n : String) (k : Bool)
    (c : Option String) (h : lookupId kg.nodes i = none) :
    (kg.add_concept i n k c).nodes = kg.nodes ++ [(i, ⟨n, k, c⟩)] :=
  updateNodes_append_of_none _ h

theorem add_edge_nodes (kg : KnowledgeGraph) (s t : Nat) :
    (kg.add_edge s t).nodes = kg.nodes := by
  unfold KnowledgeGraph.add_edge
  by_cases h1 : s = t
  · simp [h1]
  · by_cases h2 : (kg.hasConcept s && kg.hasConcept t) = true
    · simp [h1, h2]
    · simp [h1, h2]

theorem hasEdge_add_edge_mono {kg : KnowledgeGraph} {a b : Nat} (s t : Nat)
    (h : kg.hasEdge a b = true) : (kg.add_edge s t).hasEdge a b = true := by
  unfold KnowledgeGraph.add_edge
  by_cases h1 : s = t
  · simpa [h1]
  · by_cases h2 : (kg.hasConcept s && kg.hasConcept t) = true
    · rw [if_neg h1, if_pos h2]
      simp only [KnowledgeGraph.hasEdge] at h ⊢
      by_cases h3 : hasPair kg.edges s t = true
      · rw [if_pos h3]
        exact h
      · rw [if_neg h3, hasPair_append, h]
        rfl
    · rw [if_neg h1, if_neg h2]
      exact h

theorem add_edge_sets_hasEdge {kg : KnowledgeGraph} {s t : Nat} (hs : kg.hasConcept s = true)
    (ht : kg.hasConcept t = true) (hne : s ≠ t) : (kg.add_edge s t).hasEdge s t = true := by
  unfold KnowledgeGraph.add_edge
  rw [if_neg hne, if_pos (by rw [hs, ht]; rfl)]
  simp only [KnowledgeGraph.hasEdge]
  by_cases h3 : hasPair kg.edges s t = true
  · rw [if_pos h3]
    exact h3
  · rw [if_neg h3, hasPair_append]
    simp [hasPair]

theorem edgesClosed_add_concept {kg : KnowledgeGraph} (h : edgesClosed kg)
    (i : Nat) (n : String) (k : Bool) (c : Option String) :
    edgesClosed (kg.add_concept i n k c) := by
  intro e he
  have he' : e ∈ kg.edges := he
  obtain ⟨h1, h2⟩ := h e he'
  exact ⟨lookupId_updateNodes_isSome _ h1, lookupId_updateNodes_isSome _ h2⟩

theorem edgesClosed_add_edge {kg : KnowledgeGraph} (h : edgesClosed kg) (s t : Nat) :
    edgesClosed (kg.add_edge s t) := by
  unfold KnowledgeGraph.add_edge
  by_cases h1 : s = t
  · simpa [h1]
  · by_cases h2 : (kg.hasConcept s && kg.hasConcept t) = true
    · simp only [h1, h2, if_true, if_pos, if_false, if_neg]
      by_cases h3 : kg.hasEdge s t
      · simpa [h3] using h
      · simp only [h3, if_false, if_neg]
        intro e he
        simp only at he
        rcases List.mem_append.mp he with he | he
        · exact h e he
        · simp only [List.mem_singleton] at he
          subst he
          simp only [Bool.and_eq_true] at h2
          exact ⟨h2.1, h2.2⟩
    · simpa [h1, h2]

theorem edgesClosed_mark_known {kg : KnowledgeGraph} (h : edgesClosed kg) (i : Nat) :
    edgesClosed (kg.mark_known i) := by
  unfold KnowledgeGraph.mark_known
  cases hl : lookupId kg.nodes i with
  | none => exact h
  | some d =>
    by_cases hk : d.known
    · simpa [hk]
    · simp only [hk, if_false, if_neg, Bool.false_eq_true]
      intro e he
      obtain ⟨h1, h2⟩ := h e he
      exact ⟨lookupId_updateNodes_isSome _ h1, lookupId_updateNodes_isSome _ h2⟩

theorem is_known_add_edge (kg : KnowledgeGraph) (i s t : Nat) :
    (kg.add_edge s t).is_known i = kg.is_known i := by
  simp [KnowledgeGraph.is_known, add_edge_nodes]

theorem is_known_mark_known_mono {kg : KnowledgeGraph} {i : Nat} (j : Nat)
    (h : kg.is_known i = true) : (kg.mark_known j).is_known i = true := by
  unfold KnowledgeGraph.mark_known
  cases hl : lookupId kg.nodes j with
  | none => exact h
  | some d =>
    by_cases hk : d.known
    · simpa [hk]
    · simp only [hk, if_false, if_neg, Bool.false_eq_true]
      by_cases hij : i = j
      · subst hij
        simp only [KnowledgeGraph.is_known, hl] at h
        simp [h] at hk
      · simpa [KnowledgeGraph.is_known, lookupId_updateNodes_ne _ hij] using h

theorem is_known_add_concept_true {kg : KnowledgeGraph} {i : Nat} (j : Nat) (n : String)
    (c : Option String) (h : kg.is_known i = true) :
    (kg.add_concept j n true c).is_known i = true := by
  by_cases hij : i = j
  · subst hij
    simp [KnowledgeGraph.is_known, KnowledgeGraph.add_concept, lookupId_updateNodes_self]
  · simpa [KnowledgeGraph.is_known, KnowledgeGraph.add_concept,
      lookupId_updateNodes_ne _ hij] using h

theorem is_known_append_ext {kg : KnowledgeGraph} {i : Nat} (h : kg.is_known i = true)
    (ext : List (Nat × NodeData)) :
    (match lookupId (kg.nodes ++ ext) i with | some d => d.known | none => false) = true := by
  simp only [KnowledgeGraph.is_known] at h
  cases hl : lookupId kg.nodes i with
  | none => rw [hl] at h; cases h
  | some d =>
    rw [hl] at h
    rw [lookupId_append_some hl]
    exact h

/-! Lemmas about pass 1 of the injection (node reconciliation). -/

theorem pass1_edges (ns : List LearningPlanNode) : ∀ st : Pass1State,
    (pass1 st ns).kg.edges = st.kg.edges := by
  induction ns with
  | nil => intro st; rfl
  | cons n ns ih =>
    intro st
    simp only [pass1]
    cases hk : lookupKey st.map (lowerStr n.name) with
    | some cid => exact ih _
    | none => exact ih _

theorem pass1_nodes_ext (ns : List LearningPlanNode) : ∀ st : Pass1State,
    ∃ ext, (pass1 st ns).kg.nodes = st.kg.nodes ++ ext := by
  induction ns with
  | nil => intro st; exact ⟨[], by simp [pass1]⟩
  | cons n ns ih =>
    intro st
    simp only [pass1]
    cases hk : lookupKey st.map (lowerStr n.name) with
    | some cid => exact ih _
    | none =>
      obtain ⟨ext, he⟩ := ih ⟨dictInsert st.map (lowerStr n.name) st.kg.freshId,
        st.resolved ++ [(n, st.kg.freshId)], st.added + 1, st.reused,
        st.kg.add_concept st.kg.freshId n.name false
          (if n.summary = "" then none else some n.summary)⟩
      refine ⟨(st.kg.freshId, ⟨n.name, false,
        if n.summary = "" then none else some n.summary⟩) :: ext, ?_⟩
      rw [he]
      simp only [KnowledgeGraph.add_concept,
        updateNodes_append_of_none _ (lookupId_freshId st.kg)]
      simp

theorem pass1_counts (ns : List LearningPlanNode) : ∀ st : Pass1State,
    (pass1 st ns).added + (pass1 st ns).reused = st.added + st.reused + ns.length := by
  induction ns with
  | nil => intro st; simp [pass1]
  | cons n ns ih =>
    intro st
    simp only [pass1]
    cases hk : lookupKey st.map (lowerStr n.name) with
    | some cid =>
      have := ih ⟨st.map, st.resolved ++ [(n, cid)], st.added, st.reused + 1, st.kg⟩
      simp only [List.length_cons] at this ⊢
      omega
    | none =>
      have := ih ⟨dictInsert st.map (lowerStr n.name) st.kg.freshId,
        st.resolved ++ [(n, st.kg.freshId)], st.added + 1, st.reused,
        st.kg.add_concept st.kg.freshId n.name false
          (if n.summary = "" then none else some n.summary)⟩
      simp only [List.length_cons] at this ⊢
      omega

theorem pass1_nodes_length (ns : List LearningPlanNode) : ∀ st : Pass1State,
    (pass1 st ns).kg.nodes.length + st.added = st.kg.nodes.length + (pass1 st ns).added := by
  induction ns with
  | nil => intro st; simp [pass1]
  | cons n ns ih =>
    intro st
    simp only [pass1]
    cases hk : lookupKey st.map (lowerStr n.name) with
    | some cid => exact ih _
    | none =>
      dsimp only
      have hthis := ih ⟨dictInsert st.map (lowerStr n.name) st.kg.freshId,
        st.resolved ++ [(n, st.kg.freshId)], st.added + 1, st.reused,
        st.kg.add_concept st.kg.freshId n.name false
          (if n.summary = "" then none else some n.summary)⟩
      dsimp only at hthis
      have hlen : (st.kg.add_concept st.kg.freshId n.name false
          (if n.summary = "" then none else some n.summary)).nodes.length
          = st.kg.nodes.length + 1 := by
        simp [KnowledgeGraph.add_concept,
          updateNodes_append_of_none _ (lookupId_freshId st.kg)]
      rw [hlen] at hthis
      omega

theorem pass1_map_persist (ns : List LearningPlanNode) : ∀ (st : Pass1State)
    {k : String} {v : Nat}, lookupKey st.map k = some v →
    lookupKey (pass1 st ns).map k = some v := by
  induction ns with
  | nil => intro st k v h; exact h
  | cons n ns ih =>
    intro st k v h
    simp only [pass1]
    cases hk : lookupKey st.map (lowerStr n.name) with
    | some cid => exact ih _ h
    | none =>
      refine ih _ ?_
      have hne : k ≠ lowerStr n.name := by
        intro he
        rw [he, hk] at h
        cases h
      simpa [lookupKey_dictInsert_ne _ hne] using h

theorem pass1_resolved_fst (ns : List LearningPlanNode) : ∀ st : Pass1State,
    (pass1 st ns).resolved.map Prod.fst = st.resolved.map Prod.fst ++ ns := by
  induction ns with
  | nil => intro st; simp [pass1]
  | cons n ns ih =>
    intro st
    simp only [pass1]
    cases hk : lookupKey st.map (lowerStr n.name) with
    | some cid =>
      rw [ih]
      simp
    | none =>
      rw [ih]
      simp

theorem pass1_resolved_eq (ns : List LearningPlanNode) : ∀ st : Pass1State,
    (pass1 st ns).resolved = st.resolved ++
      ns.map (fun m => (m, ((lookupKey (pass1 st ns).map (lowerStr m.name)).getD 0))) := by
  induction ns with
  | nil => intro st; simp [pass1]
  | cons n ns ih =>
    intro st
    simp only [pass1]
    cases hk : lookupKey st.map (lowerStr n.name) with
    | some cid =>
      rw [ih]
      have hp : lookupKey (pass1 ⟨st.map, st.resolved ++ [(n, cid)], st.added,
          st.reused + 1, st.kg⟩ ns).map (lowerStr n.name) = some cid :=
        pass1_map_persist ns _ hk
      simp [hp]
    | none =>
      rw [ih]
      have hself : lookupKey (dictInsert st.map (lowerStr n.name) st.kg.freshId)
          (lowerStr n.name) = some st.kg.freshId :=
        lookupKey_dictInsert_self _ _ _
      have hp := pass1_map_persist ns ⟨dictInsert st.map (lowerStr n.name) st.kg.freshId,
        st.resolved ++ [(n, st.kg.freshId)], st.added + 1, st.reused,
        st.kg.add_concept st.kg.freshId n.name false
          (if n.summary = "" then none else some n.summary)⟩ hself
      simp [hp]

theorem pass1_lookup_isSome (ns : List LearningPlanNode) : ∀ (st : Pass1State)
    (n : LearningPlanNode), n ∈ ns →
    (lookupKey (pass1 st ns).map (lowerStr n.name)).isSome := by
  induction ns with
  | nil => intro st n h; cases h
  | cons m ns ih =>
    intro st n h
    simp only [pass1]
    cases hk : lookupKey st.map (lowerStr m.name) with
    | some cid =>
      dsimp only
      rcases List.mem_cons.mp h with h | h
      · subst h
        rw [pass1_map_persist ns
          ⟨st.map, st.resolved ++ [(n, cid)], st.added, st.reused + 1, st.kg⟩ hk]
        rfl
      · exact ih _ _ h
    | none =>
      dsimp only
      rcases List.mem_cons.mp h with h | h
      · subst h
        rw [pass1_map_persist ns ⟨dictInsert st.map (lowerStr n.name) st.kg.freshId,
            st.resolved ++ [(n, st.kg.freshId)], st.added + 1, st.reused,
            st.kg.add_concept st.kg.freshId n.name false
              (if n.summary = "" then none else some n.summary)⟩
          (lookupKey_dictInsert_self st.map (lowerStr n.name) _)]
        rfl
      · exact ih _ _ h

theorem buildExistingMap_append_single (xs : List (Nat × NodeData)) (p : Nat × NodeData) :
    buildExistingMap (xs ++ [p]) = mapStep (buildExistingMap xs) p := by
  simp [buildExistingMap, List.foldl_append]

theorem pass1_map_eq_build (ns : List LearningPlanNode) : ∀ st : Pass1State,
    (∀ n ∈ ns, n.name ≠ "") → st.map = buildExistingMap st.kg.nodes →
    (pass1 st ns).map = buildExistingMap (pass1 st ns).kg.nodes := by
  induction ns with
  | nil => intro st _ h; exact h
  | cons n ns ih =>
    intro st hn h
    simp only [pass1]
    cases hk : lookupKey st.map (lowerStr n.name) with
    | some cid => exact ih _ (fun m hm => hn m (List.mem_cons_of_mem _ hm)) h
    | none =>
      refine ih _ (fun m hm => hn m (List.mem_cons_of_mem _ hm)) ?_
      simp only [KnowledgeGraph.add_concept,
        updateNodes_append_of_none _ (lookupId_freshId st.kg),
        buildExistingMap_append_single, mapStep]
      rw [if_pos (hn n (List.mem_cons_self _ _))]
      rw [h]

theorem pass1_map_values (ns : List LearningPlanNode) : ∀ st : Pass1State,
    (∀ k v, lookupKey st.map k = some v →
      ∃ d, (v, d) ∈ st.kg.nodes ∧ lowerStr d.name = k) →
    ∀ k v, lookupKey (pass1 st ns).map k = some v →
      ∃ d, (v, d) ∈ (pass1 st ns).kg.nodes ∧ lowerStr d.name = k := by
  induction ns with
  | nil => intro st h; exact h
  | cons n ns ih =>
    intro st h
    simp only [pass1]
    cases hk : lookupKey st.map (lowerStr n.name) with
    | some cid => exact ih _ h
    | none =>
      refine ih _ ?_
      intro k v hv
      by_cases hkey : k = lowerStr n.name
      · subst hkey
        rw [lookupKey_dictInsert_self] at hv
        cases hv
        refine ⟨⟨n.name, false, if n.summary = "" then none else some n.summary⟩, ?_, rfl⟩
        simp only [KnowledgeGraph.add_concept,
          updateNodes_append_of_none _ (lookupId_freshId st.kg)]
        simp
      · rw [lookupKey_dictInsert_ne _ hkey] at hv
        obtain ⟨d, hmem, hname⟩ := h k v hv
        refine ⟨d, ?_, hname⟩
        simp only [KnowledgeGraph.add_concept,
          updateNodes_append_of_none _ (lookupId_freshId st.kg)]
        exact List.mem_append_left _ hmem

theorem pass1_key_iff (ns : List LearningPlanNode) : ∀ (st : Pass1State) (k : String),
    (lookupKey (pass1 st ns).map k).isSome ↔
      (lookupKey st.map k).isSome ∨ ∃ n ∈ ns, lowerStr n.name = k := by
  induction ns with
  | nil => intro st k; simp [pass1]
  | cons n ns ih =>
    intro st k
    simp only [pass1]
    cases hk : lookupKey st.map (lowerStr n.name) with
    | some cid =>
      rw [ih]
      constructor
      · rintro (h | h)
        · exact Or.inl h
        · exact Or.inr ⟨_, List.mem_cons_of_mem _ h.choose_spec.1, h.choose_spec.2⟩
      · rintro (h | ⟨m, hm, hname⟩)
        · exact Or.inl h
        · rcases List.mem_cons.mp hm with hm | hm
          · subst hm
            left
            rw [← hname, hk]
            rfl
          · exact Or.inr ⟨m, hm, hname⟩
    | none =>
      rw [ih]
      have hd : ∀ k', (lookupKey (dictInsert st.map (lowerStr n.name) st.kg.freshId) k').isSome
          ↔ ((lookupKey st.map k').isSome ∨ k' = lowerStr n.name) := by
        intro k'
        by_cases hkey : k' = lowerStr n.name
        · subst hkey
          simp [lookupKey_dictInsert_self]
        · simp [lookupKey_dictInsert_ne _ hkey, hkey]
      rw [hd]
      constructor
      · rintro ((h | h) | h)
        · exact Or.inl h
        · exact Or.inr ⟨n, List.mem_cons_self _ _, h.symm⟩
        · exact Or.inr ⟨_, List.mem_cons_of_mem _ h.choose_spec.1, h.choose_spec.2⟩
      · rintro (h | ⟨m, hm, hname⟩)
        · exact Or.inl (Or.inl h)
        · rcases List.mem_cons.mp hm with hm | hm
          · subst hm
            exact Or.inl (Or.inr hname.symm)
          · exact Or.inr ⟨m, hm, hname⟩

/-! Lemmas about pass 2 of the injection (edge resolution). -/

theorem pass2Prereq_nodes (m : List (String × Nat)) (tgt : Nat)
    (acc : KnowledgeGraph × List String) (p : String) :
    (pass2Prereq m tgt acc p).1.nodes = acc.1.nodes := by
  unfold pass2Prereq
  cases lookupKey m (lowerStr p) with
  | none => rfl
  | some src =>
    by_cases h1 : src = tgt
    · simp [h1]
    · by_cases h2 : acc.1.hasEdge src tgt = true
      · simp [h1, h2]
      · simp [h1, h2, add_edge_nodes]

theorem pass2Prereq_hasEdge_mono (m : List (String × Nat)) (tgt : Nat)
    (acc : KnowledgeGraph × List String) (p : String) {a b : Nat}
    (h : acc.1.hasEdge a b = true) : (pass2Prereq m tgt acc p).1.hasEdge a b = true := by
  unfold pass2Prereq
  cases lookupKey m (lowerStr p) with
  | none => exact h
  | some src =>
    by_cases h1 : src = tgt
    · simpa [h1] using h
    · by_cases h2 : acc.1.hasEdge src tgt = true
      · simpa [h1, h2] using h
      · simpa [h1, h2] using hasEdge_add_edge_mono src tgt h

theorem foldPrereq_nodes (m : List (String × Nat)) (tgt : Nat) :
    ∀ (l : List String) (acc : KnowledgeGraph × List String),
    ((l.foldl (pass2Prereq m tgt) acc).1.nodes = acc.1.nodes) := by
  intro l
  induction l with
  | nil => intro acc; rfl
  | cons p l ih =>
    intro acc
    rw [List.foldl_cons, ih, pass2Prereq_nodes]

theorem foldPrereq_hasEdge_mono (m : List (String × Nat)) (tgt : Nat) :
    ∀ (l : List String) (acc : KnowledgeGraph × List String) {a b : Nat},
    acc.1.hasEdge a b = true → ((l.foldl (pass2Prereq m tgt) acc).1.hasEdge a b = true) := by
  intro l
  induction l with
  | nil => intro acc a b h; exact h
  | cons p l ih =>
    intro acc a b h
    rw [List.foldl_cons]
    exact ih _ (pass2Prereq_hasEdge_mono m tgt acc p h)

theorem pass2Node_nodes (m : List (String × Nat)) (acc : KnowledgeGraph × List String)
    (r : LearningPlanNode × Nat) : (pass2Node m acc r).1.nodes = acc.1.nodes :=
  foldPrereq_nodes m r.2 r.1.prerequisites acc

theorem pass2Node_hasEdge_mono (m : List (String × Nat)) (acc : KnowledgeGraph × List String)
    (r : LearningPlanNode × Nat) {a b : Nat} (h : acc.1.hasEdge a b = true) :
    (pass2Node m acc r).1.hasEdge a b = true :=
  foldPrereq_hasEdge_mono m r.2 r.1.prerequisites acc h

theorem pass2_nodes (m : List (String × Nat)) :
    ∀ (rs : List (LearningPlanNode × Nat)) (acc : KnowledgeGraph × List String),
    (pass2 m acc rs).1.nodes = acc.1.nodes := by
  intro rs
  induction rs with
  | nil => intro acc; rfl
  | cons r rs ih =>
    intro acc
    simp only [pass2] at ih ⊢
    rw [List.foldl_cons, ih, pass2Node_nodes]

theorem pass2_hasEdge_mono (m : List (String × Nat)) :
    ∀ (rs : List (LearningPlanNode × Nat)) (acc : KnowledgeGraph × List String) {a b : Nat},
    acc.1.hasEdge a b = true → (pass2 m acc rs).1.hasEdge a b = true := by
  intro rs
  induction rs with
  | nil => intro acc a b h; exact h
  | cons r rs ih =>
    intro acc a b h
    simp only [pass2] at ih ⊢
    rw [List.foldl_cons]
    exact ih _ (pass2Node_hasEdge_mono m acc r h)

theorem pass2Prereq_skipped_mem (m : List (String × Nat)) (tgt : Nat)
    (acc : KnowledgeGraph × List String) (p x : String) :
    x ∈ (pass2Prereq m tgt acc p).2 ↔
      x ∈ acc.2 ∨ (x = p ∧ lookupKey m (lowerStr p) = none) := by
  unfold pass2Prereq
  cases hk : lookupKey m (lowerStr p) with
  | none =>
    by_cases hp : p ∈ acc.2
    · rw [if_pos hp]
      constructor
      · exact fun h => Or.inl h
      · rintro (h | ⟨h, _⟩)
        · exact h
        · exact h ▸ hp
    · rw [if_neg hp]
      simp only [List.mem_append, List.mem_singleton]
      tauto
  | some src =>
    by_cases h1 : src = tgt
    · simp [h1]
    · by_cases h2 : acc.1.hasEdge src tgt = true
      · simp [h1, h2]
      · simp [h1, h2]

theorem foldPrereq_skipped_mem (m : List (String × Nat)) (tgt : Nat) :
    ∀ (l : List String) (acc : KnowledgeGraph × List String) (x : String),
    (x ∈ (l.foldl (pass2Prereq m tgt) acc).2 ↔
      x ∈ acc.2 ∨ (x ∈ l ∧ lookupKey m (lowerStr x) = none)) := by
  intro l
  induction l with
  | nil => intro acc x; simp
  | cons p l ih =>
    intro acc x
    rw [List.foldl_cons, ih, pass2Prereq_skipped_mem]
    simp only [List.mem_cons]
    constructor
    · rintro ((h | ⟨hx, hn⟩) | ⟨hx, hn⟩)
      · exact Or.inl h
      · exact Or.inr ⟨Or.inl hx, hx ▸ hn⟩
      · exact Or.inr ⟨Or.inr hx, hn⟩
    · rintro (h | ⟨hx | hx, hn⟩)
      · exact Or.inl (Or.inl h)
      · exact Or.inl (Or.inr ⟨hx, hx ▸ hn⟩)
      · exact Or.inr ⟨hx, hn⟩

theorem pass2_skipped_mem (m : List (String × Nat)) :
    ∀ (rs : List (LearningPlanNode × Nat)) (acc : KnowledgeGraph × List String) (x : String),
    (x ∈ (pass2 m acc rs).2 ↔
      x ∈ acc.2 ∨ ((∃ r ∈ rs, x ∈ r.1.prerequisites) ∧ lookupKey m (lowerStr x) = none)) := by
  intro rs
  induction rs with
  | nil => intro acc x; simp [pass2]
  | cons r rs ih =>
    intro acc x
    simp only [pass2] at ih ⊢
    rw [List.foldl_cons, ih]
    have hnode : x ∈ (pass2Node m acc r).2 ↔
        x ∈ acc.2 ∨ (x ∈ r.1.prerequisites ∧ lookupKey m (lowerStr x) = none) :=
      foldPrereq_skipped_mem m r.2 r.1.prerequisites acc x
    rw [hnode]
    simp only [List.mem_cons]
    constructor
    · rintro ((h | ⟨hx, hn⟩) | ⟨⟨q, hq, hx⟩, hn⟩)
      · exact Or.inl h
      · exact Or.inr ⟨⟨r, Or.inl rfl, hx⟩, hn⟩
      · exact Or.inr ⟨⟨q, Or.inr hq, hx⟩, hn⟩
    · rintro (h | ⟨⟨q, hq | hq, hx⟩, hn⟩)
      · exact Or.inl (Or.inl h)
      · exact Or.inl (Or.inr ⟨hq ▸ hx, hn⟩)
      · exact Or.inr ⟨⟨q, hq, hx⟩, hn⟩

theorem pass2Prereq_skipped_nodup (m : List (String × Nat)) (tgt : Nat)
    (acc : KnowledgeGraph × List String) (p : String) (h : acc.2.Nodup) :
    (pass2Prereq m tgt acc p).2.Nodup := by
  unfold pass2Prereq
  cases lookupKey m (lowerStr p) with
  | none =>
    by_cases hp : p ∈ acc.2
    · simpa [hp]
    · rw [if_neg hp]
      simp only [List.nodup_append, List.nodup_singleton]
      refine ⟨h, trivial, ?_⟩
      intro a ha hamem
      simp only [List.mem_singleton] at hamem
      exact hp (hamem ▸ ha)
  | some src =>
    by_cases h1 : src = tgt
    · simpa [h1]
    · by_cases h2 : acc.1.hasEdge src tgt = true
      · simpa [h1, h2]
      · simpa [h1, h2]

theorem foldPrereq_skipped_nodup (m : List (String × Nat)) (tgt : Nat) :
    ∀ (l : List String) (acc : KnowledgeGraph × List String), acc.2.Nodup →
    ((l.foldl (pass2Prereq m tgt) acc).2.Nodup) := by
  intro l
  induction l with
  | nil => intro acc h; exact h
  | cons p l ih =>
    intro acc h
    rw [List.foldl_cons]
    exact ih _ (pass2Prereq_skipped_nodup m tgt acc p h)

theorem pass2_skipped_nodup (m : List (String × Nat)) :
    ∀ (rs : List (LearningPlanNode × Nat)) (acc : KnowledgeGraph × List String), acc.2.Nodup →
    ((pass2 m acc rs).2.Nodup) := by
  intro rs
  induction rs with
  | nil => intro acc h; exact h
  | cons r rs ih =>
    intro acc h
    simp only [pass2] at ih ⊢
    rw [List.foldl_cons]
    exact ih _ (foldPrereq_skipped_nodup m r.2 r.1.prerequisites acc h)

theorem pass2Prereq_sets (m : List (String × Nat)) (tgt : Nat)
    (acc : KnowledgeGraph × List String) {p : String} {src : Nat}
    (hsrc : lookupKey m (lowerStr p) = some src) (hne : src ≠ tgt)
    (hs : (lookupId acc.1.nodes src).isSome) (ht : (lookupId acc.1.nodes tgt).isSome) :
    (pass2Prereq m tgt acc p).1.hasEdge src tgt = true := by
  unfold pass2Prereq
  rw [hsrc]
  dsimp only
  rw [if_neg hne]
  by_cases h2 : acc.1.hasEdge src tgt = true
  · rwa [if_pos h2]
  · rw [if_neg h2]
    exact add_edge_sets_hasEdge hs ht hne

theorem foldPrereq_post (m : List (String × Nat)) (tgt : Nat) :
    ∀ (l : List String) (acc : KnowledgeGraph × List String),
    (∀ k v, lookupKey m k = some v → (lookupId acc.1.nodes v).isSome) →
    (lookupId acc.1.nodes tgt).isSome →
    ∀ p ∈ l, ∀ src, lookupKey m (lowerStr p) = some src → src ≠ tgt →
      ((l.foldl (pass2Prereq m tgt) acc).1.hasEdge src tgt = true) := by
  intro l
  induction l with
  | nil => intro acc _ _ p hp; cases hp
  | cons p l ih =>
    intro acc hv htgt q hq src hsrc hne
    rw [List.foldl_cons]
    have hnodes : (pass2Prereq m tgt acc p).1.nodes = acc.1.nodes :=
      pass2Prereq_nodes m tgt acc p
    rcases List.mem_cons.mp hq with hq | hq
    · subst hq
      exact foldPrereq_hasEdge_mono m tgt l _
        (pass2Prereq_sets m tgt acc hsrc hne (hv _ _ hsrc) htgt)
    · exact ih _ (fun k v hkv => hnodes ▸ hv k v hkv) (hnodes ▸ htgt) q hq src hsrc hne

theorem pass2_post (m : List (String × Nat)) :
    ∀ (rs : List (LearningPlanNode × Nat)) (acc : KnowledgeGraph × List String),
    (∀ k v, lookupKey m k = some v → (lookupId acc.1.nodes v).isSome) →
    (∀ r ∈ rs, (lookupId acc.1.nodes r.2).isSome) →
    ∀ r ∈ rs, ∀ p ∈ r.1.prerequisites, ∀ src,
      lookupKey m (lowerStr p) = some src → src ≠ r.2 →
      ((pass2 m acc rs).1.hasEdge src r.2 = true) := by
  intro rs
  induction rs with
  | nil => intro acc _ _ r hr; cases hr
  | cons r rs ih =>
    intro acc hv htgt r' hr' p hp src hsrc hne
    simp only [pass2] at ih ⊢
    rw [List.foldl_cons]
    have hnodes : (pass2Node m acc r).1.nodes = acc.1.nodes := pass2Node_nodes m acc r
    rcases List.mem_cons.mp hr' with hr' | hr'
    · subst hr'
      exact pass2_hasEdge_mono m rs _
        (foldPrereq_post m r'.2 r'.1.prerequisites acc hv
          (htgt r' (List.mem_cons_self _ _)) p hp src hsrc hne)
    · exact ih _ (fun k v hkv => hnodes ▸ hv k v hkv)
        (fun q hq => hnodes ▸ htgt q (List.mem_cons_of_mem _ hq)) r' hr' p hp src hsrc hne

theorem foldPrereq_noop (m : List (String × Nat)) (tgt : Nat) :
    ∀ (l : List String) (acc : KnowledgeGraph × List String),
    (∀ p ∈ l, ∀ src, lookupKey m (lowerStr p) = some src → src ≠ tgt →
      acc.1.hasEdge src tgt = true) →
    ((l.foldl (pass2Prereq m tgt) acc).1 = acc.1) := by
  intro l
  induction l with
  | nil => intro acc _; rfl
  | cons p l ih =>
    intro acc h
    rw [List.foldl_cons]
    have hstep : (pass2Prereq m tgt acc p).1 = acc.1 := by
      unfold pass2Prereq
      cases hk : lookupKey m (lowerStr p) with
      | none => rfl
      | some src =>
        by_cases h1 : src = tgt
        · simp [h1]
        · have := h p (List.mem_cons_self _ _) src hk h1
          simp [h1, this]
    rw [ih _ (fun q hq src hsrc hne => by
      rw [hstep]
      exact h q (List.mem_cons_of_mem _ hq) src hsrc hne)]
    exact hstep

theorem pass2_noop (m : List (String × Nat)) :
    ∀ (rs : List (LearningPlanNode × Nat)) (acc : KnowledgeGraph × List String),
    (∀ r ∈ rs, ∀ p ∈ r.1.prerequisites, ∀ src,
      lookupKey m (lowerStr p) = some src → src ≠ r.2 → acc.1.hasEdge src r.2 = true) →
    ((pass2 m acc rs).1 = acc.1) := by
  intro rs
  induction rs with
  | nil => intro acc _; rfl
  | cons r rs ih =>
    intro acc h
    simp only [pass2] at ih ⊢
    rw [List.foldl_cons]
    have hstep : (pass2Node m acc r).1 = acc.1 :=
      foldPrereq_noop m r.2 r.1.prerequisites acc
        (fun p hp src hsrc hne => h r (List.mem_cons_self _ _) p hp src hsrc hne)
    rw [ih _ (fun r' hr' p hp src hsrc hne => by
      rw [hstep]
      exact h r' (List.mem_cons_of_mem _ hr') p hp src hsrc hne)]
    exact hstep

/-! Bridge lemmas: the components of one full injection call. -/

theorem inject_graph_eq (kg : KnowledgeGraph) (plan : LearningPlan) (d m : Nat) :
    (inject_learning_plan kg plan d m).graph =
      (pass2 (pass1 ⟨buildExistingMap kg.nodes, [], 0, 0, kg⟩ (plan.filtered d m).nodes).map
        ((pass1 ⟨buildExistingMap kg.nodes, [], 0, 0, kg⟩ (plan.filtered d m).nodes).kg, [])
        (pass1 ⟨buildExistingMap kg.nodes, [], 0, 0, kg⟩ (plan.filtered d m).nodes).resolved).1 :=
  rfl

theorem inject_added_eq (kg : KnowledgeGraph) (plan : LearningPlan) (d m : Nat) :
    (inject_learning_plan kg plan d m).added =
      (pass1 ⟨buildExistingMap kg.nodes, [], 0, 0, kg⟩ (plan.filtered d m).nodes).added :=
  rfl

theorem inject_reused_eq (kg : KnowledgeGraph) (plan : LearningPlan) (d m : Nat) :
    (inject_learning_plan kg plan d m).reused =
      (pass1 ⟨buildExistingMap kg.nodes, [], 0, 0, kg⟩ (plan.filtered d m).nodes).reused :=
  rfl

theorem inject_skipped_eq (kg : KnowledgeGraph) (plan : LearningPlan) (d m : Nat) :
    (inject_learning_plan kg plan d m).skipped =
      sortStrings (pass2 (pass1 ⟨buildExistingMap kg.nodes, [], 0, 0, kg⟩
          (plan.filtered d m).nodes).map
        ((pass1 ⟨buildExistingMap kg.nodes, [], 0, 0, kg⟩ (plan.filtered d m).nodes).kg, [])
        (pass1 ⟨buildExistingMap kg.nodes, [], 0, 0, kg⟩ (plan.filtered d m).nodes).resolved).2 :=
  rfl

theorem pass1_all_reuse :
    ∀ (ns : List LearningPlanNode) (st : Pass1State),
    (∀ n ∈ ns, (lookupKey st.map (lowerStr n.name)).isSome) →
    (pass1 st ns).map = st.map ∧ (pass1 st ns).kg = st.kg ∧
    (pass1 st ns).added = st.added ∧ (pass1 st ns).reused = st.reused + ns.length ∧
    (pass1 st ns).resolved = st.resolved ++
      ns.map (fun n => (n, (lookupKey st.map (lowerStr n.name)).getD 0)) := by
  intro ns
  induction ns with
  | nil => intro st _; exact ⟨rfl, rfl, rfl, rfl, by simp [pass1]⟩
  | cons n ns ih =>
    intro st h
    have hn := h n (List.mem_cons_self _ _)
    obtain ⟨cid, hk⟩ := Option.isSome_iff_exists.mp hn
    simp only [pass1]
    rw [hk]
    dsimp only
    obtain ⟨h1, h2, h3, h4, h5⟩ := ih ⟨st.map, st.resolved ++ [(n, cid)], st.added,
      st.reused + 1, st.kg⟩ (fun q hq => h q (List.mem_cons_of_mem _ hq))
    dsimp only at h1 h2 h3 h4 h5
    refine ⟨h1, h2, h3, by rw [h4]; simp [Nat.add_comm, Nat.add_assoc, Nat.add_left_comm], ?_⟩
    rw [h5]
    simp only [List.map_cons, hk]
    simp

theorem pass1_reused_count (M : List (String × Nat)) :
    ∀ (ns : List LearningPlanNode) (st : Pass1State),
    (∀ n ∈ ns, (lookupKey st.map (lowerStr n.name)).isSome =
      (lookupKey M (lowerStr n.name)).isSome) →
    ((ns.map (fun n => lowerStr n.name)).Nodup) →
    (pass1 st ns).reused = st.reused +
      (ns.filter (fun n => (lookupKey M (lowerStr n.name)).isSome)).length := by
  intro ns
  induction ns with
  | nil => intro st _ _; simp [pass1]
  | cons n ns ih =>
    intro st hagree hnodup
    have hn := hagree n (List.mem_cons_self _ _)
    have hnodup' : ((ns.map (fun n => lowerStr n.name)).Nodup) := by
      simpa using hnodup.of_cons
    have hne : ∀ q ∈ ns, lowerStr q.name ≠ lowerStr n.name := by
      intro q hq he
      simp only [List.map_cons, List.nodup_cons] at hnodup
      exact hnodup.1 (he ▸ List.mem_map_of_mem _ hq)
    simp only [pass1]
    cases hk : lookupKey st.map (lowerStr n.name) with
    | some cid =>
      dsimp only
      have hM : (lookupKey M (lowerStr n.name)).isSome = true := by
        rw [← hn, hk]
        rfl
      rw [ih ⟨st.map, st.resolved ++ [(n, cid)], st.added, st.reused + 1, st.kg⟩
        (fun q hq => hagree q (List.mem_cons_of_mem _ hq)) hnodup']
      have hfil : (n :: ns).filter (fun q => (lookupKey M (lowerStr q.name)).isSome) =
          n :: ns.filter (fun q => (lookupKey M (lowerStr q.name)).isSome) := by
        simp [List.filter_cons, hM]
      dsimp only
      rw [hfil, List.length_cons]
      omega
    | none =>
      dsimp only
      have hM : (lookupKey M (lowerStr n.name)).isSome = false := by
        rw [← hn, hk]
        rfl
      rw [ih ⟨dictInsert st.map (lowerStr n.name) st.kg.freshId,
          st.resolved ++ [(n, st.kg.freshId)], st.added + 1, st.reused,
          st.kg.add_concept st.kg.freshId n.name false
            (if n.summary = "" then none else some n.summary)⟩
        (fun q hq => by
          dsimp only
          rw [lookupKey_dictInsert_ne _ (hne q hq)]
          exact hagree q (List.mem_cons_of_mem _ hq)) hnodup']
      have hfil : (n :: ns).filter (fun q => (lookupKey M (lowerStr q.name)).isSome) =
          ns.filter (fun q => (lookupKey M (lowerStr q.name)).isSome) := by
        simp [List.filter_cons, hM]
      dsimp only
      rw [hfil]

theorem foldl_mapStep_values (P : String → Nat → Prop) :
    ∀ (ns : List (Nat × NodeData)) (m : List (String × Nat)),
    (∀ k v, lookupKey m k = some v → P k v) →
    (∀ p ∈ ns, p.2.name ≠ "" → P (lowerStr p.2.name) p.1) →
    ∀ k v, lookupKey (ns.foldl mapStep m) k = some v → P k v := by
  intro ns
  induction ns with
  | nil => intro m hm _ k v h; exact hm k v h
  | cons p ns ih =>
    intro m hm hp k v h
    rw [List.foldl_cons] at h
    refine ih (mapStep m p) ?_ (fun q hq => hp q (List.mem_cons_of_mem _ hq)) k v h
    intro k' v' h'
    unfold mapStep at h'
    by_cases hname : p.2.name ≠ ""
    · rw [if_pos hname] at h'
      by_cases hkey : k' = lowerStr p.2.name
      · subst hkey
        rw [lookupKey_dictInsert_self] at h'
        cases h'
        exact hp p (List.mem_cons_self _ _) hname
      · rw [lookupKey_dictInsert_ne _ hkey] at h'
        exact hm k' v' h'
    · rw [if_neg hname] at h'
      exact hm k' v' h'

theorem buildExistingMap_values (xs : List (Nat × NodeData)) :
    ∀ k v, lookupKey (buildExistingMap xs) k = some v →
      ∃ d, (v, d) ∈ xs ∧ lowerStr d.name = k := by
  refine foldl_mapStep_values _ xs [] (fun k v h => by cases h) ?_
  intro p hp hname
  exact ⟨p.2, hp, rfl⟩

theorem foldl_mapStep_key_iff :
    ∀ (ns : List (Nat × NodeData)) (m : List (String × Nat)) (k : String),
    ((lookupKey (ns.foldl mapStep m) k).isSome ↔
      (lookupKey m k).isSome ∨ ∃ p ∈ ns, p.2.name ≠ "" ∧ lowerStr p.2.name = k) := by
  intro ns
  induction ns with
  | nil => intro m k; simp
  | cons p ns ih =>
    intro m k
    rw [List.foldl_cons, ih]
    have hstep : (lookupKey (mapStep m p) k).isSome ↔
        ((lookupKey m k).isSome ∨ (p.2.name ≠ "" ∧ lowerStr p.2.name = k)) := by
      unfold mapStep
      by_cases hname : p.2.name ≠ ""
      · rw [if_pos hname]
        by_cases hkey : k = lowerStr p.2.name
        · subst hkey
          simp [lookupKey_dictInsert_self, hname]
        · rw [lookupKey_dictInsert_ne _ hkey]
          constructor
          · exact fun h => Or.inl h
          · rintro (h | ⟨hn, he⟩)
            · exact h
            · exact absurd he.symm hkey
      · rw [if_neg hname]
        push_neg at hname
        simp [hname]
    rw [hstep]
    constructor
    · rintro ((h | h) | ⟨q, hq, hn, he⟩)
      · exact Or.inl h
      · exact Or.inr ⟨p, List.mem_cons_self _ _, h⟩
      · exact Or.inr ⟨q, List.mem_cons_of_mem _ hq, hn, he⟩
    · rintro (h | ⟨q, hq, hn, he⟩)
      · exact Or.inl (Or.inl h)
      · rcases List.mem_cons.mp hq with hq | hq
        · exact Or.inl (Or.inr (hq ▸ ⟨hn, he⟩))
        · exact Or.inr ⟨q, hq, hn, he⟩

theorem exists_fst {α β : Type} {rs : List (α × β)} {Q : α → Prop} :
    (∃ r ∈ rs, Q r.1) ↔ ∃ a ∈ rs.map Prod.fst, Q a := by
  constructor
  · rintro ⟨r, hr, hq⟩
    exact ⟨r.1, List.mem_map_of_mem _ hr, hq⟩
  · rintro ⟨a, ha, hq⟩
    obtain ⟨r, hr, rfl⟩ := List.mem_map.mp ha
    exact ⟨r, hr, hq⟩

theorem pass1_edgesClosed (ns : List LearningPlanNode) : ∀ st : Pass1State,
    edgesClosed st.kg → edgesClosed (pass1 st ns).kg := by
  induction ns with
  | nil => intro st h; exact h
  | cons n ns ih =>
    intro st h
    simp only [pass1]
    cases hk : lookupKey st.map (lowerStr n.name) with
    | some cid => exact ih _ h
    | none => exact ih _ (edgesClosed_add_concept h _ _ _ _)

theorem pass2Prereq_edgesClosed (m : List (String × Nat)) (tgt : Nat)
    (acc : KnowledgeGraph × List String) (p : String) (h : edgesClosed acc.1) :
    edgesClosed (pass2Prereq m tgt acc p).1 := by
  unfold pass2Prereq
  cases lookupKey m (lowerStr p) with
  | none => exact h
  | some src =>
    by_cases h1 : src = tgt
    · simpa [h1] using h
    · by_cases h2 : acc.1.hasEdge src tgt = true
      · simpa [h1, h2] using h
      · simpa [h1, h2] using edgesClosed_add_edge h src tgt

theorem foldPrereq_edgesClosed (m : List (String × Nat)) (tgt : Nat) :
    ∀ (l : List String) (acc : KnowledgeGraph × List String), edgesClosed acc.1 →
    edgesClosed ((l.foldl (pass2Prereq m tgt) acc).1) := by
  intro l
  induction l with
  | nil => intro acc h; exact h
  | cons p l ih =>
    intro acc h
    rw [List.foldl_cons]
    exact ih _ (pass2Prereq_edgesClosed m tgt acc p h)

theorem pass2_edgesClosed (m : List (String × Nat)) :
    ∀ (rs : List (LearningPlanNode × Nat)) (acc : KnowledgeGraph × List String),
    edgesClosed acc.1 → edgesClosed ((pass2 m acc rs).1) := by
  intro rs
  induction rs with
  | nil => intro acc h; exact h
  | cons r rs ih =>
    intro acc h
    simp only [pass2] at ih ⊢
    rw [List.foldl_cons]
    exact ih _ (foldPrereq_edgesClosed m r.2 r.1.prerequisites acc h)

theorem edgesClosed_inject {kg : KnowledgeGraph} (h : edgesClosed kg)
    (plan : LearningPlan) (d m : Nat) :
    edgesClosed (inject_learning_plan kg plan d m).graph := by
  rw [inject_graph_eq]
  refine pass2_edgesClosed _ _ _ ?_
  refine pass1_edgesClosed _ _ ?_
  exact h

theorem inject_nodes_ext (kg : KnowledgeGraph) (plan : LearningPlan) (d m : Nat) :
    ∃ ext, (inject_learning_plan kg plan d m).graph.nodes = kg.nodes ++ ext := by
  rw [inject_graph_eq, pass2_nodes]
  exact pass1_nodes_ext (plan.filtered d m).nodes ⟨buildExistingMap kg.nodes, [], 0, 0, kg⟩

theorem is_known_inject {kg : KnowledgeGraph} {i : Nat} (plan : LearningPlan) (d m : Nat)
    (h : kg.is_known i = true) : (inject_learning_plan kg plan d m).graph.is_known i = true := by
  obtain ⟨ext, hext⟩ := inject_nodes_ext kg plan d m
  simp only [KnowledgeGraph.is_known, hext]
  exact is_known_append_ext h ext

theorem inject_preserves_existing (kg : KnowledgeGraph) (plan : LearningPlan) (d m : Nat) :
    ∀ i, (lookupId kg.nodes i).isSome →
      lookupId (inject_learning_plan kg plan d m).graph.nodes i = lookupId kg.nodes i := by
  intro i h
  obtain ⟨ext, hext⟩ := inject_nodes_ext kg plan d m
  rw [hext]
  exact lookupId_append_of_isSome h

/-! Claim theorems. -/

/-- C10: for every graph and plan, the counters returned by injection
satisfy added + reused = number of nodes of the filtered plan, and the
graph's node count grows by exactly `added`; injection never removes a
node (the node list is only ever extended, see `inject_nodes_ext`). -/
theorem inject_counts (kg : KnowledgeGraph) (plan : LearningPlan) (depth maxNodes : Nat) :
    (inject_learning_plan kg plan depth maxNodes).added +
      (inject_learning_plan kg plan depth maxNodes).reused =
      (plan.filtered depth maxNodes).nodes.length ∧
    (inject_learning_plan kg plan depth maxNodes).graph.nodes.length =
      kg.nodes.length + (inject_learning_plan kg plan depth maxNodes).added := by
  constructor
  · rw [inject_added_eq, inject_reused_eq]
    have h := pass1_counts (plan.filtered depth maxNodes).nodes
      ⟨buildExistingMap kg.nodes, [], 0, 0, kg⟩
    dsimp only at h
    omega
  · rw [inject_graph_eq, pass2_nodes, inject_added_eq]
    dsimp only
    have h := pass1_nodes_length (plan.filtered depth maxNodes).nodes
      ⟨buildExistingMap kg.nodes, [], 0, 0, kg⟩
    dsimp only at h
    omega

/-- C2: `filtered` keeps exactly the nodes with difficulty at most `depth`
(as a multiset), sorted by the key (difficulty, lowercased name), truncated
to the first `max_nodes` entries when `max_nodes` is positive and applying
no truncation when it is 0; the root topic is unchanged.  The input plan is
not mutated: `filtered` is a pure function of its argument in this
embedding, as in the source, which builds a new list. -/
theorem filtered_spec (P : LearningPlan) (d n : Nat) :
    (P.filtered d n).root_topic = P.root_topic ∧
    ((P.filtered d 0).nodes.Perm (P.nodes.filter (fun x => x.difficulty ≤ d))) ∧
    List.Sorted planKeyLE (P.filtered d n).nodes ∧
    (∀ x ∈ (P.filtered d n).nodes, x.difficulty ≤ d ∧ x ∈ P.nodes) ∧
    (0 < n → (P.filtered d n).nodes = (P.filtered d 0).nodes.take n ∧
      (P.filtered d n).nodes.length ≤ n) := by
  have hzero : (P.filtered d 0).nodes =
      List.insertionSort planKeyLE (P.nodes.filter (fun x => x.difficulty ≤ d)) := by
    simp [LearningPlan.filtered]
  have hsort : List.Sorted planKeyLE
      (List.insertionSort planKeyLE (P.nodes.filter (fun x => x.difficulty ≤ d))) :=
    List.sorted_insertionSort planKeyLE _
  have hperm := List.perm_insertionSort planKeyLE (P.nodes.filter (fun x => x.difficulty ≤ d))
  have hcases : (P.filtered d n).nodes =
      (List.insertionSort planKeyLE (P.nodes.filter (fun x => x.difficulty ≤ d))).take n ∨
      (P.filtered d n).nodes =
      List.insertionSort planKeyLE (P.nodes.filter (fun x => x.difficulty ≤ d)) := by
    unfold LearningPlan.filtered
    by_cases hc : n ≠ 0 ∧ n <
        (List.insertionSort planKeyLE (P.nodes.filter (fun x => x.difficulty ≤ d))).length
    · rw [if_pos hc]
      exact Or.inl rfl
    · rw [if_neg hc]
      exact Or.inr rfl
  refine ⟨rfl, hzero ▸ hperm, ?_, ?_, ?_⟩
  · rcases hcases with hc | hc
    · rw [hc]
      exact List.Pairwise.sublist (List.take_sublist _ _) hsort
    · rw [hc]
      exact hsort
  · intro x hx
    have hx' : x ∈ List.insertionSort planKeyLE
        (P.nodes.filter (fun y => y.difficulty ≤ d)) := by
      rcases hcases with hc | hc
      · exact List.take_subset _ _ (hc ▸ hx)
      · exact hc ▸ hx
    rw [List.mem_insertionSort] at hx'
    have := List.mem_filter.mp hx'
    exact ⟨by simpa using this.2, this.1⟩
  · intro hn
    by_cases hc : n ≠ 0 ∧ n <
        (List.insertionSort planKeyLE (P.nodes.filter (fun x => x.difficulty ≤ d))).length
    · have htake : (P.filtered d n).nodes = (List.insertionSort planKeyLE
          (P.nodes.filter (fun x => x.difficulty ≤ d))).take n := by
        unfold LearningPlan.filtered
        rw [if_pos hc]
      rw [htake, hzero]
      refine ⟨rfl, ?_⟩
      simp only [List.length_take]
      omega
    · have heq : (P.filtered d n).nodes = List.insertionSort planKeyLE
          (P.nodes.filter (fun x => x.difficulty ≤ d)) := by
        unfold LearningPlan.filtered
        rw [if_neg hc]
      have hlen : (List.insertionSort planKeyLE
          (P.nodes.filter (fun x => x.difficulty ≤ d))).length ≤ n := by
        rcases not_and_or.mp hc with h | h
        · push_neg at h
          omega
        · omega
      rw [heq, hzero]
      exact ⟨(List.take_of_length_le hlen).symm, hlen⟩

/-- C2 witness: the take-truncation clause at a concrete plan. -/
theorem filtered_spec_witness :
    (planOrdW.filtered 2 1).nodes = (planOrdW.filtered 2 0).nodes.take 1 ∧
      (planOrdW.filtered 2 1).nodes.length ≤ 1 :=
  (filtered_spec planOrdW 2 1).2.2.2.2 (by decide)

/-- C6 counterexample: when the edge already exists, `add_edge` is not a
no-op on the graph value — the version counter is still incremented, so
the resulting graph differs from the input. -/
theorem add_edge_duplicate_version_counterexample :
    kgAB.hasEdge 1 2 = true ∧ kgAB.add_edge 1 2 ≠ kgAB := by
  decide

/-- C6 (amended): `add_edge` is a complete no-op for a self-loop or an
absent endpoint; when the edge already exists it leaves the node and edge
lists unchanged but still increments the version counter; otherwise it
appends the edge and increments the version counter. -/
theorem add_edge_spec (kg : KnowledgeGraph) (s t : Nat) :
    (s = t → kg.add_edge s t = kg) ∧
    ((kg.hasConcept s = false ∨ kg.hasConcept t = false) → kg.add_edge s t = kg) ∧
    (s ≠ t → kg.hasConcept s = true → kg.hasConcept t = true → kg.hasEdge s t = true →
      (kg.add_edge s t).edges = kg.edges ∧ (kg.add_edge s t).nodes = kg.nodes ∧
      (kg.add_edge s t).version = kg.version + 1) ∧
    (s ≠ t → kg.hasConcept s = true → kg.hasConcept t = true → kg.hasEdge s t = false →
      (kg.add_edge s t).edges = kg.edges ++ [(s, t)] ∧ (kg.add_edge s t).nodes = kg.nodes ∧
      (kg.add_edge s t).version = kg.version + 1) := by
  refine ⟨?_, ?_, ?_, ?_⟩
  · intro h
    unfold KnowledgeGraph.add_edge
    rw [if_pos h]
  · intro h
    unfold KnowledgeGraph.add_edge
    by_cases h1 : s = t
    · rw [if_pos h1]
    · have hc : ¬ (kg.hasConcept s && kg.hasConcept t) = true := by
        rcases h with h | h <;> simp [h]
      rw [if_neg h1, if_neg hc]
  · intro h1 hs ht he
    unfold KnowledgeGraph.add_edge
    rw [if_neg h1, if_pos (by rw [hs, ht]; rfl)]
    rw [if_pos he]
    exact ⟨rfl, rfl, rfl⟩
  · intro h1 hs ht he
    unfold KnowledgeGraph.add_edge
    rw [if_neg h1, if_pos (by rw [hs, ht]; rfl)]
    rw [if_neg (by rw [he]; exact Bool.false_ne_true)]
    exact ⟨rfl, rfl, rfl⟩

/-- C6 witness: the duplicate-edge clause of `add_edge_spec` at a concrete
graph. -/
theorem add_edge_spec_witness :
    (kgAB.add_edge 1 2).edges = kgAB.edges ∧ (kgAB.add_edge 1 2).nodes = kgAB.nodes ∧
      (kgAB.add_edge 1 2).version = kgAB.version + 1 :=
  (add_edge_spec kgAB 1 2).2.2.1 (by decide) (by decide) (by decide) (by decide)

/-- C5 counterexample: a sequence of two `add_concept` operations flips
`is_known` from true to false, because `add_concept` overwrites the node
attributes of an existing id (networkx `add_node` semantics). -/
theorem known_reset_counterexample :
    (applyOps KnowledgeGraph.empty [GraphOp.addConcept 1 "A" true none]).is_known 1 = true ∧
    (applyOps KnowledgeGraph.empty [GraphOp.addConcept 1 "A" true none,
      GraphOp.addConcept 1 "A" false none]).is_known 1 = false := by
  decide

/-- C5 (amended): within a session, `is_known` never transitions from true
to false under any sequence of `add_edge`, `mark_known`, injection, and
`add_concept`-with-known=true operations; an `add_concept` call with
known=false can reset the flag of an existing node, so it is excluded. -/
theorem known_monotone (kg : KnowledgeGraph) (ops : List GraphOp) (i : Nat)
    (hops : ∀ op ∈ ops, op.knownSafe) (h : kg.is_known i = true) :
    (applyOps kg ops).is_known i = true := by
  induction ops generalizing kg with
  | nil => exact h
  | cons op ops ih =>
    simp only [applyOps, List.foldl_cons]
    have hstep : (applyOp kg op).is_known i = true := by
      have hsafe := hops op (List.mem_cons_self _ _)
      cases op with
      | addConcept j n k c =>
        have hk : k = true := hsafe
        subst hk
        exact is_known_add_concept_true j n c h
      | addEdge s t =>
        rw [applyOp, is_known_add_edge]
        exact h
      | markKnown j => exact is_known_mark_known_mono j h
      | injectPlan p d m => exact is_known_inject p d m h
    have := ih (applyOp kg op) (fun o ho => hops o (List.mem_cons_of_mem _ ho)) hstep
    simpa [applyOps] using this

/-- C5 witness: monotonicity at a concrete graph and operation list. -/
theorem known_monotone_witness :
    (applyOps kgKnownW [GraphOp.markKnown 1]).is_known 1 = true :=
  known_monotone kgKnownW [GraphOp.markKnown 1] 1
    (fun op hop => by
      simp only [List.mem_singleton] at hop
      subst hop
      trivial)
    (by decide)

/-- C4: starting from the empty graph, any sequence of operations
(concept adds, edge adds, known marks, injections) keeps every edge's two
endpoints present in the graph; and `add_edge` with an absent endpoint is
silently dropped. -/
theorem no_dangling_edges :
    (∀ ops : List GraphOp, edgesClosed (applyOps KnowledgeGraph.empty ops)) ∧
    (∀ (kg : KnowledgeGraph) (s t : Nat),
      (kg.hasConcept s = false ∨ kg.hasConcept t = false) → kg.add_edge s t = kg) := by
  constructor
  · have hstep : ∀ (kg : KnowledgeGraph) (ops : List GraphOp), edgesClosed kg →
        edgesClosed (applyOps kg ops) := by
      intro kg ops
      induction ops generalizing kg with
      | nil => intro h; exact h
      | cons op ops ih =>
        intro h
        simp only [applyOps, List.foldl_cons]
        have hop : edgesClosed (applyOp kg op) := by
          cases op with
          | addConcept j n k c => exact edgesClosed_add_concept h j n k c
          | addEdge s t => exact edgesClosed_add_edge h s t
          | markKnown j => exact edgesClosed_mark_known h j
          | injectPlan p d m => exact edgesClosed_inject h p d m
        have := ih (applyOp kg op) hop
        simpa [applyOps] using this
    intro ops
    refine hstep _ ops ?_
    intro e he
    cases he
  · intro kg s t h
    unfold KnowledgeGraph.add_edge
    by_cases h1 : s = t
    · rw [if_pos h1]
    · have hc : ¬ (kg.hasConcept s && kg.hasConcept t) = true := by
        rcases h with h | h <;> simp [h]
      rw [if_neg h1, if_neg hc]

/-- C4 witness: an edge insert with absent endpoints on the empty graph is
dropped. -/
theorem no_dangling_edges_witness : KnowledgeGraph.empty.add_edge 5 6 = KnowledgeGraph.empty :=
  no_dangling_edges.2 KnowledgeGraph.empty 5 6 (Or.inl (by decide))

/-- C7: the code does not satisfy the claim — when the storage collaborator
fails partway through an injection (here: the flush creating the second
new concept), the exception aborts the call (the caller sees no result)
and the database transaction rolls back, but the in-memory graph passed by
reference keeps the mutations already applied (the first new concept), so
durable state and in-memory state diverge.  The error value is the
in-memory graph at the moment the exception propagates: it contains node
"A" although no durable record survives. -/
theorem inject_partial_failure :
    injectWithBudget 1 KnowledgeGraph.empty planABW 1 0 =
      Except.error ⟨[(1, ⟨"A", false, none⟩)], [], 1⟩ ∧
    (KnowledgeGraph.mk [(1, ⟨"A", false, none⟩)] [] 1) ≠ KnowledgeGraph.empty :=
  ⟨rfl, by decide⟩

/-- C8: on a graph holding only the known node "Math" (id 1), injecting
the plan Math(d1) / Calculus(d2, prereq Math) / Limits(d3, prereq
Calculus) at depth 4 with max_nodes 10 returns added 2, reused 1, no
skipped names, and the shortest path from Math (id 1) to Limits (id 3) is
Math → Calculus → Limits. -/
theorem math_scenario :
    (inject_learning_plan kgMathW planMathW 4 10).added = 2 ∧
    (inject_learning_plan kgMathW planMathW 4 10).reused = 1 ∧
    (inject_learning_plan kgMathW planMathW 4 10).skipped = [] ∧
    (inject_learning_plan kgMathW planMathW 4 10).graph.shortest_path 1 3 = some [1, 2, 3] :=
  ⟨rfl, rfl, rfl, rfl⟩

/-- C9: reuse is read-only — injection never changes the stored attribute
record of any id already present in the graph (even when the plan node's
summary or difficulty differ, since the reuse branch writes nothing), and,
when the filtered plan has no case-insensitive duplicate names (the
invariant the plan parser guarantees), the reused counter is exactly the
number of filtered plan nodes whose lowercased name is bound in the
`existing_map` built from the graph. -/
theorem reuse_readonly (kg : KnowledgeGraph) (plan : LearningPlan) (depth maxNodes : Nat)
    (hnodup : ((plan.filtered depth maxNodes).nodes.map (fun n => lowerStr n.name)).Nodup) :
    (∀ i, (lookupId kg.nodes i).isSome →
      lookupId (inject_learning_plan kg plan depth maxNodes).graph.nodes i =
        lookupId kg.nodes i) ∧
    (inject_learning_plan kg plan depth maxNodes).reused =
      ((plan.filtered depth maxNodes).nodes.filter
        (fun n => (lookupKey (buildExistingMap kg.nodes) (lowerStr n.name)).isSome)).length := by
  constructor
  · exact inject_preserves_existing kg plan depth maxNodes
  · rw [inject_reused_eq]
    have h := pass1_reused_count (buildExistingMap kg.nodes)
      (plan.filtered depth maxNodes).nodes
      ⟨buildExistingMap kg.nodes, [], 0, 0, kg⟩ (fun n _ => rfl) hnodup
    dsimp only at h
    omega

/-- C9 witness: attribute preservation and the reuse count at the Math
scenario (Math is reused, Calculus and Limits are new). -/
theorem reuse_readonly_witness :
    lookupId (inject_learning_plan kgMathW planMathW 4 10).graph.nodes 1 =
      lookupId kgMathW.nodes 1 ∧
    (inject_learning_plan kgMathW planMathW 4 10).reused =
      ((planMathW.filtered 4 10).nodes.filter
        (fun n => (lookupKey (buildExistingMap kgMathW.nodes) (lowerStr n.name)).isSome)).length :=
  ⟨(reuse_readonly kgMathW planMathW 4 10 (by decide)).1 1 (by decide),
   (reuse_readonly kgMathW planMathW 4 10 (by decide)).2⟩

/-- C3: the skipped result is a sorted, duplicate-free list holding (under
its original casing) exactly the prerequisite names of filtered plan nodes
whose lowercased form matches neither a (non-empty-named) graph node nor a
filtered plan node; an unresolved prerequisite never drops the node that
references it — that node's name is still present in the resulting graph —
and injection is a total function, so it never fails. -/
theorem inject_skipped_spec (kg : KnowledgeGraph) (plan : LearningPlan) (depth maxNodes : Nat)
    (hg : ∀ p ∈ kg.nodes, p.2.name ≠ "") :
    List.Sorted strLeP (inject_learning_plan kg plan depth maxNodes).skipped ∧
    (inject_learning_plan kg plan depth maxNodes).skipped.Nodup ∧
    (∀ x, x ∈ (inject_learning_plan kg plan depth maxNodes).skipped ↔
      ((∃ nd ∈ (plan.filtered depth maxNodes).nodes, x ∈ nd.prerequisites) ∧
        (¬ ∃ p ∈ kg.nodes, lowerStr p.2.name = lowerStr x) ∧
        (¬ ∃ nd ∈ (plan.filtered depth maxNodes).nodes, lowerStr nd.name = lowerStr x))) ∧
    (∀ nd ∈ (plan.filtered depth maxNodes).nodes,
      ∃ q ∈ (inject_learning_plan kg plan depth maxNodes).graph.nodes,
        lowerStr q.2.name = lowerStr nd.name) := by
  have hfst : (pass1 ⟨buildExistingMap kg.nodes, [], 0, 0, kg⟩
      (plan.filtered depth maxNodes).nodes).resolved.map Prod.fst =
      (plan.filtered depth maxNodes).nodes := by
    have h := pass1_resolved_fst (plan.filtered depth maxNodes).nodes
      ⟨buildExistingMap kg.nodes, [], 0, 0, kg⟩
    simpa using h
  have hkey : ∀ x : String,
      ((lookupKey (pass1 ⟨buildExistingMap kg.nodes, [], 0, 0, kg⟩
        (plan.filtered depth maxNodes).nodes).map (lowerStr x)).isSome ↔
      ((∃ p ∈ kg.nodes, lowerStr p.2.name = lowerStr x) ∨
        (∃ nd ∈ (plan.filtered depth maxNodes).nodes, lowerStr nd.name = lowerStr x))) := by
    intro x
    rw [pass1_key_iff]
    dsimp only
    unfold buildExistingMap
    rw [foldl_mapStep_key_iff]
    have hnil : (lookupKey [] (lowerStr x)).isSome = false := rfl
    rw [hnil]
    simp only [Bool.false_eq_true, false_or]
    constructor
    · rintro (⟨p, hp, _, he⟩ | h)
      · exact Or.inl ⟨p, hp, he⟩
      · exact Or.inr h
    · rintro (⟨p, hp, he⟩ | h)
      · exact Or.inl ⟨p, hp, hg p hp, he⟩
      · exact Or.inr h
  refine ⟨?_, ?_, ?_, ?_⟩
  · rw [inject_skipped_eq]
    unfold sortStrings
    exact List.sorted_insertionSort strLeP _
  · rw [inject_skipped_eq]
    unfold sortStrings
    rw [(List.perm_insertionSort strLeP _).nodup_iff]
    exact pass2_skipped_nodup _ _ _ List.nodup_nil
  · intro x
    rw [inject_skipped_eq]
    unfold sortStrings
    rw [List.mem_insertionSort, pass2_skipped_mem]
    simp only [List.not_mem_nil, false_or]
    have hex : ((∃ r ∈ (pass1 ⟨buildExistingMap kg.nodes, [], 0, 0, kg⟩
        (plan.filtered depth maxNodes).nodes).resolved, x ∈ r.1.prerequisites) ↔
        (∃ nd ∈ (plan.filtered depth maxNodes).nodes, x ∈ nd.prerequisites)) := by
      constructor
      · rintro ⟨r, hr, hx⟩
        refine ⟨r.1, ?_, hx⟩
        rw [← hfst]
        exact List.mem_map_of_mem _ hr
      · rintro ⟨nd, hnd, hx⟩
        rw [← hfst] at hnd
        obtain ⟨r, hr, rfl⟩ := List.mem_map.mp hnd
        exact ⟨r, hr, hx⟩
    rw [hex]
    have hnone : ((lookupKey (pass1 ⟨buildExistingMap kg.nodes, [], 0, 0, kg⟩
        (plan.filtered depth maxNodes).nodes).map (lowerStr x) = none) ↔
        ((¬ ∃ p ∈ kg.nodes, lowerStr p.2.name = lowerStr x) ∧
          (¬ ∃ nd ∈ (plan.filtered depth maxNodes).nodes,
            lowerStr nd.name = lowerStr x))) := by
      rw [← Option.not_isSome_iff_eq_none, hkey x, not_or]
    rw [hnone]
  · intro nd hnd
    have hiss := pass1_lookup_isSome (plan.filtered depth maxNodes).nodes
      ⟨buildExistingMap kg.nodes, [], 0, 0, kg⟩ nd hnd
    obtain ⟨v, hv⟩ := Option.isSome_iff_exists.mp hiss
    have hvals := pass1_map_values (plan.filtered depth maxNodes).nodes
      ⟨buildExistingMap kg.nodes, [], 0, 0, kg⟩
      (fun k v h => buildExistingMap_values kg.nodes k v h) _ _ hv
    obtain ⟨d, hmem, hname⟩ := hvals
    refine ⟨(v, d), ?_, hname⟩
    rw [inject_graph_eq, pass2_nodes]
    exact hmem

/-- C3 witness: the skipped list is duplicate-free at a concrete plan with
one unresolvable prerequisite. -/
theorem inject_skipped_spec_witness :
    (inject_learning_plan KnowledgeGraph.empty planSkipW 4 0).skipped.Nodup :=
  (inject_skipped_spec KnowledgeGraph.empty planSkipW 4 0
    (fun p hp => absurd hp (List.not_mem_nil p))).2.1

/-- C1: injection is idempotent — re-running the same (well-formed: no
empty node names, as the plan parser guarantees) plan with the same depth
and max_nodes against the graph produced by the first run reports
added = 0 and reused = the filtered plan's node count, and returns the
first run's graph unchanged (in particular the edge list and edge count
are unchanged). -/
theorem inject_idempotent (kg : KnowledgeGraph) (plan : LearningPlan) (depth maxNodes : Nat)
    (hnames : ∀ nd ∈ (plan.filtered depth maxNodes).nodes, nd.name ≠ "") :
    (inject_learning_plan (inject_learning_plan kg plan depth maxNodes).graph
      plan depth maxNodes).added = 0 ∧
    (inject_learning_plan (inject_learning_plan kg plan depth maxNodes).graph
      plan depth maxNodes).reused = (plan.filtered depth maxNodes).nodes.length ∧
    (inject_learning_plan (inject_learning_plan kg plan depth maxNodes).graph
      plan depth maxNodes).graph = (inject_learning_plan kg plan depth maxNodes).graph := by
  have hg1nodes : (inject_learning_plan kg plan depth maxNodes).graph.nodes =
      (pass1 ⟨buildExistingMap kg.nodes, [], 0, 0, kg⟩
        (plan.filtered depth maxNodes).nodes).kg.nodes := by
    rw [inject_graph_eq, pass2_nodes]
  have hmap : buildExistingMap (inject_learning_plan kg plan depth maxNodes).graph.nodes =
      (pass1 ⟨buildExistingMap kg.nodes, [], 0, 0, kg⟩
        (plan.filtered depth maxNodes).nodes).map := by
    rw [hg1nodes]
    exact (pass1_map_eq_build (plan.filtered depth maxNodes).nodes
      ⟨buildExistingMap kg.nodes, [], 0, 0, kg⟩ hnames rfl).symm
  have hres1 : (pass1 ⟨buildExistingMap kg.nodes, [], 0, 0, kg⟩
      (plan.filtered depth maxNodes).nodes).resolved =
      (plan.filtered depth maxNodes).nodes.map (fun n => (n,
        (lookupKey (pass1 ⟨buildExistingMap kg.nodes, [], 0, 0, kg⟩
          (plan.filtered depth maxNodes).nodes).map (lowerStr n.name)).getD 0)) := by
    have h := pass1_resolved_eq (plan.filtered depth maxNodes).nodes
      ⟨buildExistingMap kg.nodes, [], 0, 0, kg⟩
    simpa using h
  obtain ⟨hm2, hkg2, hadd2, hreu2, hres2⟩ :=
    pass1_all_reuse (plan.filtered depth maxNodes).nodes
      ⟨buildExistingMap (inject_learning_plan kg plan depth maxNodes).graph.nodes, [], 0, 0,
        (inject_learning_plan kg plan depth maxNodes).graph⟩
      (by
        intro n hn
        show (lookupKey (buildExistingMap
          (inject_learning_plan kg plan depth maxNodes).graph.nodes) (lowerStr n.name)).isSome
        rw [hmap]
        exact pass1_lookup_isSome _ _ n hn)
  have hv : ∀ k v, lookupKey (pass1 ⟨buildExistingMap kg.nodes, [], 0, 0, kg⟩
      (plan.filtered depth maxNodes).nodes).map k = some v →
      (lookupId ((pass1 ⟨buildExistingMap kg.nodes, [], 0, 0, kg⟩
        (plan.filtered depth maxNodes).nodes).kg,
        ([] : List String)).1.nodes v).isSome := by
    intro k v h
    obtain ⟨d, hmem, _⟩ := pass1_map_values (plan.filtered depth maxNodes).nodes
      ⟨buildExistingMap kg.nodes, [], 0, 0, kg⟩
      (fun k v h => buildExistingMap_values kg.nodes k v h) k v h
    exact lookupId_isSome_of_mem hmem
  have htgt : ∀ r ∈ (pass1 ⟨buildExistingMap kg.nodes, [], 0, 0, kg⟩
      (plan.filtered depth maxNodes).nodes).resolved,
      (lookupId ((pass1 ⟨buildExistingMap kg.nodes, [], 0, 0, kg⟩
        (plan.filtered depth maxNodes).nodes).kg,
        ([] : List String)).1.nodes r.2).isSome := by
    intro r hr
    rw [hres1] at hr
    obtain ⟨n, hn, rfl⟩ := List.mem_map.mp hr
    have hiss := pass1_lookup_isSome (plan.filtered depth maxNodes).nodes
      ⟨buildExistingMap kg.nodes, [], 0, 0, kg⟩ n hn
    obtain ⟨v, hv'⟩ := Option.isSome_iff_exists.mp hiss
    rw [hv']
    exact hv _ _ hv'
  refine ⟨?_, ?_, ?_⟩
  · rw [inject_added_eq]
    simpa using hadd2
  · rw [inject_reused_eq]
    simpa using hreu2
  · rw [inject_graph_eq, hm2, hkg2, hres2]
    dsimp only
    rw [hmap]
    simp only [List.nil_append]
    rw [← hres1]
    refine pass2_noop _ _ _ ?_
    intro r hr p hp src hsrc hne
    have hpost := pass2_post (pass1 ⟨buildExistingMap kg.nodes, [], 0, 0, kg⟩
        (plan.filtered depth maxNodes).nodes).map
      (pass1 ⟨buildExistingMap kg.nodes, [], 0, 0, kg⟩
        (plan.filtered depth maxNodes).nodes).resolved
      ((pass1 ⟨buildExistingMap kg.nodes, [], 0, 0, kg⟩
        (plan.filtered depth maxNodes).nodes).kg, ([] : List String))
      hv htgt r hr p hp src hsrc hne
    rw [← inject_graph_eq] at hpost
    exact hpost

/-- C1 witness: idempotence at a concrete graph and plan. -/
theorem inject_idempotent_witness :
    (inject_learning_plan (inject_learning_plan KnowledgeGraph.empty planOneW 1 0).graph
      planOneW 1 0).added = 0 :=
  (inject_idempotent KnowledgeGraph.empty planOneW 1 0 (by decide)).1

end Alp
